import Mathlib

/-!
Verification of the `markov_predictions` repository: an open-addressing
hash table with tombstone deletion and growth (`hash_table.py`), and a
k-order Markov model with Laplace-smoothed log-likelihood scoring built
on top of it (`markov.py`).

The Python source is shallowly embedded below.  Python strings are
`List Char` (Python `ord` is `Char.toNat`).  Python exceptions and the
possibility of an unbounded `while` loop never terminating are captured
by the `Fail` type: each fallible operation returns `Except Fail _`,
and `Fail.diverge` marks a loop that provably never exits (the loops in
`__getitem__` / `__delitem__` have no iteration bound in the source; their
scan state repeats after `capacity` steps, so `capacity` probes decide
the outcome, which is how the fuel values below are chosen).

The float load factor 0.5 and the check `len >= loadfactor * capacity`
are modelled exactly by the integer comparison
`loadfactorDen * len >= loadfactorNum * capacity` (for the values used
by this program the float arithmetic is exact, so this is faithful).
-/

/-- Outcomes of Python code that can raise or loop forever.
`exception` is the bare `raise Exception` in `Markov.__init__`;
`runTimeError` is the `raise RunTimeError` in `Hashtable.__setitem__`
(the source misspells `RuntimeError`, so at runtime it would surface as a
`NameError`; either way it is an abnormal exit, which is all we model);
`diverge` marks an infinite loop. -/
inductive Fail where
  | keyError
  | runTimeError
  | exception
  | indexError
  | diverge
deriving DecidableEq, Repr

/-- One slot of the hash table's backing list.  The source stores either the
default value (never a tuple) or a tuple `(key, value, live)`; following the
fact that the default is never itself a 3-tuple in this program, a slot is
modelled as a tagged variant. -/
inductive Slot (α : Type) where
  | empty
  | occ (key : List Char) (value : α) (live : Bool)
deriving DecidableEq, Repr

/-- `hash_table.py` `Hashtable.__init__`: capacity, default value, load
factor (as an exact fraction), growth factor, backing table.  The
`rehashing` re-entrancy flag of the source is not a field: it is `True`
exactly during `_rehash`'s reinsertion pass, which is modelled
structurally below (`_rehash` reinserts through `setitemCore`, the part
of `__setitem__` that runs when the flag disables the load check). -/
structure Hashtable (α : Type) where
  capacity : ℕ
  defVal : α
  loadfactorNum : ℕ
  loadfactorDen : ℕ
  growthFactor : ℕ
  table : List (Slot α)
deriving DecidableEq, Repr

/-- Fresh table, as built by `Hashtable.__init__`. -/
def mkHashtable (α : Type) (capacity : ℕ) (defVal : α) (lfNum lfDen g : ℕ) :
    Hashtable α :=
  { capacity := capacity, defVal := defVal,
    loadfactorNum := lfNum, loadfactorDen := lfDen,
    growthFactor := g,
    table := List.replicate capacity (Slot.empty) }

namespace Hashtable

variable {α : Type}

/-- `Hashtable._hash`: Horner's method with the prime multiplier 37,
reduced mod `capacity` at every step, seeded at 0 (`reduce` over the
key's characters). -/
def hashKey (cap : ℕ) (key : List Char) : ℕ :=
  key.foldl (fun h c => (h * 37 + c.toNat) % cap) 0

/-- Slot read `self.table[hash_val]`.  All reads happen at indices below
`capacity = table.length`, so the default is never returned for the
states the theorems below quantify over. -/
def slotAt (h : Hashtable α) (i : ℕ) : Slot α :=
  h.table.getD i Slot.empty

/-- `Hashtable.__len__`: number of slots holding a live tuple. -/
def len (h : Hashtable α) : ℕ :=
  h.table.countP (fun s => match s with | Slot.occ _ _ true => true | _ => false)

/-- `Hashtable.keys`: keys of live slots, in table storage order. -/
def keys (h : Hashtable α) : List (List Char) :=
  h.table.filterMap (fun s => match s with
    | Slot.occ k _ true => some k
    | _ => none)

/-- `Hashtable.values`: values of live slots, in table storage order. -/
def values (h : Hashtable α) : List α :=
  h.table.filterMap (fun s => match s with
    | Slot.occ _ v true => some v
    | _ => none)

/-- `Hashtable.__contains__`: `key in self.keys()`. -/
def containsKey (h : Hashtable α) (key : List Char) : Bool :=
  h.keys.contains key

/-- `Hashtable.__bool__`: table is non-empty. -/
def toBool (h : Hashtable α) : Bool :=
  ¬ h.len = 0

/-- The linear-probing scan of `__getitem__` (its `while not key_found`
loop).  One fuel unit per iteration; the loop has no iteration bound in
the source, and its state repeats after `capacity` steps, so running out
of `capacity` fuel means the Python loop never terminates. -/
def getitemLoop (h : Hashtable α) (key : List Char) :
    ℕ → ℕ → Except Fail α
  | _, 0 => Except.error Fail.diverge
  | hv, fuel + 1 =>
    let hv := if h.capacity ≤ hv then 0 else hv
    match h.slotAt hv with
    | Slot.empty => Except.ok h.defVal
    | Slot.occ k v live =>
      if k = key ∧ live = true then Except.ok v
      else getitemLoop h key (hv + 1) fuel

/-- `Hashtable.__getitem__`: check the primary slot for a live match,
otherwise scan linearly (starting again at the primary slot) until an
empty slot (return the default) or a live match. -/
def getitem (h : Hashtable α) (key : List Char) : Except Fail α :=
  let hv := hashKey h.capacity key
  match h.slotAt hv with
  | Slot.occ k v true => if k = key then Except.ok v else
      getitemLoop h key hv h.capacity
  | _ => getitemLoop h key hv h.capacity

/-- The `while not acceptable_loc_found` loop of `__setitem__`.  The
source raises once `iter_count` reaches `capacity`, so the loop is
bounded; fuel `capacity + 1 - iter` always suffices (`setitemLoop_total`
below).  Note the faithful quirk: overwriting a live slot whose key
matches does NOT set the exit flag, so the scan continues and will also
write the pair at the next empty or tombstoned slot. -/
def setitemLoop (h : Hashtable α) (key : List Char) (value : α) :
    ℕ → ℕ → ℕ → Option (Except Fail (Hashtable α))
  | _, _, 0 => none
  | hv, iter, fuel + 1 =>
    if h.capacity ≤ iter then some (Except.error Fail.runTimeError)
    else
      let hv := if h.capacity ≤ hv then 0 else hv
      match h.slotAt hv with
      | Slot.empty =>
        some (Except.ok { h with table := h.table.set hv (Slot.occ key value true) })
      | Slot.occ k _ live =>
        if live = false then
          some (Except.ok { h with table := h.table.set hv (Slot.occ key value true) })
        else if k = key then
          setitemLoop { h with table := h.table.set hv (Slot.occ key value true) }
            key value (hv + 1) (iter + 1) fuel
        else
          setitemLoop h key value (hv + 1) (iter + 1) fuel

/-- The body of `__setitem__` after its load check: write into the
primary slot if it is empty, tombstoned, or holds the same key;
otherwise run the probing loop (which starts back at the primary slot
with `iter_count = 0`).  This is exactly what `__setitem__` does when
`self.rehashing` is true, hence it is what `_rehash` reinserts with. -/
def setitemCore (h : Hashtable α) (key : List Char) (value : α) :
    Except Fail (Hashtable α) :=
  let hv := hashKey h.capacity key
  match h.slotAt hv with
  | Slot.empty =>
    Except.ok { h with table := h.table.set hv (Slot.occ key value true) }
  | Slot.occ k _ live =>
    if live = false ∨ k = key then
      Except.ok { h with table := h.table.set hv (Slot.occ key value true) }
    else
      match setitemLoop h key value hv 0 (h.capacity + 1) with
      | some r => r
      | none => Except.error Fail.diverge

/-- `Hashtable._rehash`: multiply the capacity by the growth factor,
keep the live tuples in storage order, re-allocate an all-empty table,
and reinsert every kept tuple through `__setitem__` (with the
re-entrancy flag set, i.e. through `setitemCore`). -/
def rehash (h : Hashtable α) : Except Fail (Hashtable α) :=
  let newCap := h.capacity * h.growthFactor
  let filtered := h.table.filterMap (fun s => match s with
    | Slot.occ k v true => some (k, v)
    | _ => none)
  let fresh : Hashtable α :=
    { h with capacity := newCap, table := List.replicate newCap (Slot.empty) }
  filtered.foldlM (fun acc kv => setitemCore acc kv.1 kv.2) fresh

/-- `Hashtable.__setitem__`: trigger `_rehash` first when
`len >= loadfactor * capacity` (exact integer form of the float check),
then place the entry. -/
def setitem (h : Hashtable α) (key : List Char) (value : α) :
    Except Fail (Hashtable α) :=
  if h.loadfactorNum * h.capacity ≤ h.loadfactorDen * h.len then
    match rehash h with
    | Except.ok h' => setitemCore h' key value
    | Except.error e => Except.error e
  else
    setitemCore h key value

/-- The `while not key_found` loop of `__delitem__`: raise `KeyError` at
an empty slot, tombstone the first live match, skip everything else.
Like the lookup loop it has no iteration bound in the source; the same
fuel convention applies. -/
def delitemLoop (h : Hashtable α) (key : List Char) :
    ℕ → ℕ → Except Fail (Hashtable α)
  | _, 0 => Except.error Fail.diverge
  | hv, fuel + 1 =>
    let hv := if h.capacity ≤ hv then 0 else hv
    match h.slotAt hv with
    | Slot.empty => Except.error Fail.keyError
    | Slot.occ k v live =>
      if k = key ∧ live = true then
        Except.ok { h with table := h.table.set hv (Slot.occ k v false) }
      else delitemLoop h key (hv + 1) fuel

/-- `Hashtable.__delitem__`: tombstone the live match at the primary
slot, otherwise scan (starting again at the primary slot). -/
def delitem (h : Hashtable α) (key : List Char) : Except Fail (Hashtable α) :=
  let hv := hashKey h.capacity key
  match h.slotAt hv with
  | Slot.occ k v true =>
    if k = key then
      Except.ok { h with table := h.table.set hv (Slot.occ k v false) }
    else delitemLoop h key hv h.capacity
  | _ => delitemLoop h key hv h.capacity

end Hashtable

deriving instance DecidableEq for Except

/-! ## The Markov model (`markov.py`) -/

/-- Python slice `l[a:b]` with negative-index and clamping semantics. -/
def pySlice (l : List Char) (a b : ℤ) : List Char :=
  let n : ℤ := l.length
  let lo : ℤ := if a < 0 then max (n + a) 0 else min a n
  let hi : ℤ := if b < 0 then max (n + b) 0 else min b n
  (l.take hi.toNat).drop lo.toNat

/-- Ordering on substrings used to model the sorted output of
`np.unique` (codepoint-lexicographic, a prefix before its extensions,
matching numpy's comparison of null-padded fixed-width strings). -/
def keyLe : List Char → List Char → Bool
  | [], _ => true
  | _ :: _, [] => false
  | a :: as, b :: bs => if a < b then true else if b < a then false else keyLe as bs

/-- Insert into a sorted list (helper for `npUnique`). -/
def insertKeySorted (x : List Char) : List (List Char) → List (List Char)
  | [] => [x]
  | y :: ys => if keyLe x y then x :: y :: ys else y :: insertKeySorted x ys

/-- Sort a list of substrings (helper for `npUnique`). -/
def sortKeys (l : List (List Char)) : List (List Char) :=
  l.foldr insertKeySorted []

/-- The first component of `np.unique(..., return_counts=True)`,
modelled as value-based deduplication in sorted order.  The real
`np.unique` receives a fixed-width numpy string array: every element is
padded with trailing NULs to the longest length, compared padded, and
read back with trailing NULs stripped.  For NUL-free inputs the two
agree exactly — padding NUL-free strings of different lengths never
makes them equal, and stripping undoes the padding — but an input that
itself carries NUL characters can make a string compare equal to its
NUL-extension, which `np.unique` then merges while this model keeps
them apart.  The one claim that quantifies over the table's contents is
therefore stated for NUL-free training texts, where this model is
exact. -/
def npUnique (l : List (List Char)) : List (List Char) :=
  sortKeys l.dedup

/-- The substring-pair enumeration shared by `Markov._gen_table` and
`Markov.log_probability` (the `k_k1_len_substrings` list): the sliced
pairs for `i in range(len(text))` with `i+k-1 < len(text)`, minus the
first (`[1:]`), then the appended end pair (whose `text[0]` raises an
IndexError on empty text), then for `k > 1` the wrapped pairs. -/
def genPairs (k : ℕ) (text : List Char) :
    Except Fail (List (List Char × List Char)) :=
  let n := text.length
  let comp := (((List.range n).filter (fun (i : ℕ) => (i : ℤ) + (k : ℤ) - 1 < (n : ℤ))).map
      (fun (i : ℕ) => (pySlice text ((i : ℤ) - 1) ((i : ℤ) + (k : ℤ) - 1),
                 pySlice text ((i : ℤ) - 1) ((i : ℤ) + (k : ℤ))))).drop 1
  match text with
  | [] => Except.error Fail.indexError
  | c0 :: _ =>
    let base := comp ++ [(pySlice text (-(k : ℤ)) (n : ℤ), pySlice text (-(k : ℤ)) (n : ℤ) ++ [c0])]
    let tailPart :=
      if 1 < k then
        (List.range (pySlice text (1 - (k : ℤ)) (n : ℤ)).length).map (fun (ci : ℕ) =>
          (pySlice text (1 - (k : ℤ) + (ci : ℤ)) (n : ℤ) ++ pySlice text 0 ((ci : ℤ) + 1),
           pySlice text (1 - (k : ℤ) + (ci : ℤ)) (n : ℤ) ++ pySlice text 0 ((ci : ℤ) + 2)))
      else []
    Except.ok (base ++ tailPart)

/-- The `(substring, count)` pairs produced by `np.unique(..., return_counts
= True)` on the flattened substring list, in sorted key order; these are
exactly the assignments `self.table[substring] = count` performed by
`Markov._gen_table`.  As with `npUnique`, counts are by string value:
exact whenever the substrings are NUL-free (every substring of a
NUL-free text is), while the real fixed-width comparison would merge a
substring with its NUL-extension when the text itself contains NUL. -/
def genTableEntries (k : ℕ) (text : List Char) :
    Except Fail (List (List Char × ℕ)) := do
  let pairs ← genPairs k text
  let flat := pairs.flatMap (fun p => [p.1, p.2])
  pure ((npUnique flat).map (fun s => (s, flat.count s)))

/-- Lookup in a Python `dict` modelled as an association list (first
match; the keys are unique in every dict this file builds). -/
def alookup {β : Type} : List (List Char × β) → List Char → Option β
  | [], _ => none
  | p :: ps, k => if p.1 = k then some p.2 else alookup ps k

/-- Python `dict` assignment `d[key] = v`: update in place if present,
else append (insertion order preserved). -/
def dictSet (d : List (List Char × ℕ)) (key : List Char) (v : ℕ) :
    List (List Char × ℕ) :=
  if d.any (fun p => p.1 = key) then
    d.map (fun p => if p.1 = key then (key, v) else p)
  else d ++ [(key, v)]

/-- The frequency table backend selected by `state`: the custom
`Hashtable` (state 0) or a native `dict` (state 1). -/
inductive MTable where
  | hashtable (h : Hashtable ℕ)
  | pydict (d : List (List Char × ℕ))
deriving DecidableEq

/-- `markov.py` `Markov`: order `k`, `alphabet_len = len(set(speech))`,
and the frequency table built by `_gen_table`. -/
structure Markov where
  k : ℕ
  alphabet_len : ℕ
  table : MTable
deriving DecidableEq

/-- `HASH_CELLS = 57` and the `Hashtable(HASH_CELLS, 0, 0.5, 2)`
constructed by `Markov.__init__` for state 0. -/
def markovFreshTable : Hashtable ℕ := mkHashtable ℕ 57 0 1 2 2

/-- `Markov.__init__`: reject any state other than 0/1 (`raise
Exception`), then set `k` and `alphabet_len` and run `_gen_table`,
which inserts every `np.unique` entry into the chosen backend. -/
def mkMarkov (k : ℕ) (speech : List Char) (state : ℕ) : Except Fail Markov :=
  if state = 0 then do
    let entries ← genTableEntries k speech
    let h ← entries.foldlM (fun h e => Hashtable.setitem h e.1 e.2) markovFreshTable
    pure { k := k, alphabet_len := speech.dedup.length, table := MTable.hashtable h }
  else if state = 1 then do
    let entries ← genTableEntries k speech
    let d := entries.foldl (fun d e => dictSet d e.1 e.2) []
    pure { k := k, alphabet_len := speech.dedup.length, table := MTable.pydict d }
  else Except.error Fail.exception

/-- The `_access_values` closure of `Markov.log_probability`: a table
lookup that yields 0 for a missing key (the `Hashtable` returns its
default 0 itself; the `dict` raises `KeyError`, caught and turned into
0). -/
def accessValues (t : MTable) (key : List Char) : Except Fail ℕ :=
  match t with
  | MTable.hashtable h => Hashtable.getitem h key
  | MTable.pydict d => Except.ok ((alookup d key).getD 0)

/-- `Markov.log_probability`: over the same circular substring-pair
enumeration of the evaluated text, sum
`log((count(sub_k1) + 1) / (count(sub_k) + alphabet_len))`. -/
noncomputable def logProbability (m : Markov) (text : List Char) :
    Except Fail ℝ := do
  let pairs ← genPairs m.k text
  pairs.foldlM (fun acc p => do
    let n1 ← accessValues m.table p.2
    let n0 ← accessValues m.table p.1
    pure (acc + Real.log (((n1 : ℝ) + 1) / ((n0 : ℝ) + (m.alphabet_len : ℝ)))))
    (0 : ℝ)

/-- `markov.py` `identify_speaker`: build one model per corpus, score the
unknown text with each, normalize by its length, and pick `"A"` exactly
when A's normalized score is strictly greater. -/
noncomputable def identifySpeaker (speakerA speakerB unknown : List Char)
    (order state : ℕ) : Except Fail (ℝ × ℝ × String) := do
  let modelA ← mkMarkov order speakerA state
  let modelB ← mkMarkov order speakerB state
  let rawA ← logProbability modelA unknown
  let rawB ← logProbability modelB unknown
  let scoreA := rawA / (unknown.length : ℝ)
  let scoreB := rawB / (unknown.length : ℝ)
  pure (if scoreB < scoreA then (scoreA, scoreB, "A") else (scoreA, scoreB, "B"))

/-! ## Generic list lemmas used by the verification -/

section ListLemmas

variable {β : Type}

theorem countP_set_eq (p : β → Bool) (l : List β) (i : ℕ) (a : β) (hi : i < l.length) :
    (l.set i a).countP p + (if p (l.get ⟨i, hi⟩) then 1 else 0)
      = l.countP p + (if p a then 1 else 0) := by
  induction l generalizing i with
  | nil => simp at hi
  | cons x xs ih =>
    cases i with
    | zero => simp [List.countP_cons]; omega
    | succ n =>
      simp only [List.set_cons_succ, List.countP_cons, List.get_cons_succ]
      have := ih n (by simpa using hi)
      omega

theorem two_le_countP_aux (p : β → Bool) :
    ∀ (l : List β) (i j : ℕ), i < j → ∀ (hi : i < l.length) (hj : j < l.length),
    p (l.get ⟨i, hi⟩) → p (l.get ⟨j, hj⟩) → 2 ≤ l.countP p := by
  intro l
  induction l with
  | nil => intro i j _ hi; exact absurd hi (by simp)
  | cons x xs ih =>
    intro i j hij hi hj hpi hpj
    cases i with
    | zero =>
      cases j with
      | zero => omega
      | succ m =>
        have hpx : p x = true := hpi
        have hpj2 : p (xs.get ⟨m, by simpa using hj⟩) = true := hpj
        have h1 : 0 < xs.countP p := by
          rw [List.countP_pos_iff]
          exact ⟨xs.get ⟨m, by simpa using hj⟩, List.get_mem _ _ _, hpj2⟩
        rw [List.countP_cons_of_pos (l := xs) p hpx]
        omega
    | succ n =>
      cases j with
      | zero => omega
      | succ m =>
        have hpi2 : p (xs.get ⟨n, by simpa using hi⟩) = true := hpi
        have hpj2 : p (xs.get ⟨m, by simpa using hj⟩) = true := hpj
        have := ih n m (by omega) (by simpa using hi) (by simpa using hj) hpi2 hpj2
        rw [List.countP_cons]
        omega

theorem two_le_countP (p : β → Bool) (l : List β) (i j : ℕ) (hij : i ≠ j)
    (hi : i < l.length) (hj : j < l.length)
    (hpi : p (l.get ⟨i, hi⟩)) (hpj : p (l.get ⟨j, hj⟩)) :
    2 ≤ l.countP p := by
  rcases Nat.lt_or_ge i j with hlt | hge
  · exact two_le_countP_aux p l i j hlt hi hj hpi hpj
  · exact two_le_countP_aux p l j i (by omega) hj hi hpj hpi

theorem exists_not_of_countP_lt (p : β → Bool) (l : List β)
    (h : l.countP p < l.length) : ∃ x ∈ l, ¬ p x := by
  by_contra hc
  push_neg at hc
  have : l.countP p = l.length := List.countP_eq_length.2 (by
    intro a ha; exact hc a ha)
  omega

theorem alookup_eq_none {β : Type} (l : List (List Char × β)) (k : List Char)
    (h : ∀ p ∈ l, p.1 ≠ k) : alookup l k = none := by
  induction l with
  | nil => rfl
  | cons x xs ih =>
    simp only [alookup]
    rw [if_neg (h x (by simp))]
    exact ih (fun p hp => h p (by simp [hp]))

theorem alookup_of_mem_nodup {β : Type} (l : List (List Char × β)) (k : List Char) (v : β)
    (hmem : (k, v) ∈ l) (hnd : (l.map Prod.fst).Nodup) : alookup l k = some v := by
  induction l with
  | nil => simp at hmem
  | cons x xs ih =>
    simp only [List.map_cons, List.nodup_cons] at hnd
    rcases List.mem_cons.1 hmem with h | h
    · simp [alookup, ← h]
    · have hx : x.1 ≠ k := by
        intro he
        exact hnd.1 (by
          rw [he]
          exact List.mem_map.2 ⟨(k, v), h, rfl⟩)
      simp only [alookup, if_neg hx]
      exact ih h hnd.2

theorem alookup_isSome_iff {β : Type} (l : List (List Char × β)) (k : List Char) :
    (alookup l k).isSome = true ↔ k ∈ l.map Prod.fst := by
  induction l with
  | nil => simp [alookup]
  | cons x xs ih =>
    rw [List.map_cons, List.mem_cons]
    by_cases hx : x.1 = k
    · simp only [alookup, if_pos hx]
      constructor
      · intro _; exact Or.inl hx.symm
      · intro _; rfl
    · simp only [alookup, if_neg hx]
      rw [ih]
      constructor
      · intro hmem; exact Or.inr hmem
      · intro hmem
        rcases hmem with h | h
        · exact absurd h.symm hx
        · exact h

end ListLemmas

/-! ## Probe-scan helpers -/

namespace Hashtable

variable {α : Type}

theorem normalize_eq_mod (cap hv : ℕ) (hpos : 0 < cap) (hle : hv ≤ cap) :
    (if cap ≤ hv then 0 else hv) = hv % cap := by
  by_cases hc : cap ≤ hv
  · have he : hv = cap := by omega
    rw [if_pos hc, he, Nat.mod_self]
  · rw [if_neg hc, Nat.mod_eq_of_lt (by omega)]

theorem exists_offset (cap s i : ℕ) (hpos : 0 < cap) (hi : i < cap) :
    ∃ t < cap, (s + t) % cap = i := by
  have hd := Nat.div_add_mod s cap
  have hm : s % cap < cap := Nat.mod_lt s hpos
  rcases le_or_lt (s % cap) i with hle | hlt
  · refine ⟨i - s % cap, by omega, ?_⟩
    have he : s + (i - s % cap) = i + cap * (s / cap) := by omega
    rw [he, Nat.add_mul_mod_self_left, Nat.mod_eq_of_lt hi]
  · refine ⟨cap + i - s % cap, by omega, ?_⟩
    have he : s + (cap + i - s % cap) = i + cap * (s / cap + 1) := by
      have hx : cap * (s / cap + 1) = cap * (s / cap) + cap := by ring
      omega
    rw [he, Nat.add_mul_mod_self_left, Nat.mod_eq_of_lt hi]

theorem offset_inj (cap s u t : ℕ) (hu : u < cap) (ht : t < cap)
    (h : (s + u) % cap = (s + t) % cap) : u = t := by
  have : (s + u) % cap = (s + t) % cap → u % cap = t % cap := by
    intro he
    have h1 : (u + s) % cap = (t + s) % cap := by
      rw [Nat.add_comm u s, Nat.add_comm t s]; exact he
    have := Nat.ModEq.add_right_cancel' s h1
    exact this
  have := this h
  rwa [Nat.mod_eq_of_lt hu, Nat.mod_eq_of_lt ht] at this

theorem slotAt_set_self (h : Hashtable α) (i : ℕ) (a : Slot α) (hi : i < h.table.length) :
    Hashtable.slotAt { h with table := h.table.set i a } i = a := by
  simp [Hashtable.slotAt, List.getD, List.getElem?_set_self, hi]

theorem slotAt_set_ne (h : Hashtable α) (i j : ℕ) (a : Slot α) (hij : i ≠ j) :
    Hashtable.slotAt { h with table := h.table.set i a } j = h.slotAt j := by
  simp [Hashtable.slotAt, List.getD, List.getElem?_set_ne hij]

theorem slotAt_eq_getElem (h : Hashtable α) (i : ℕ) (hi : i < h.table.length) :
    h.slotAt i = h.table[i] := by
  simp [Hashtable.slotAt, List.getD, List.getElem?_eq_getElem hi]

theorem slotAt_mem (h : Hashtable α) (i : ℕ) (hi : i < h.table.length) :
    h.slotAt i ∈ h.table := by
  rw [h.slotAt_eq_getElem i hi]
  exact List.getElem_mem hi

end Hashtable

namespace Hashtable

variable {α : Type}

theorem foldl_hash_lt (cap : ℕ) (hpos : 0 < cap) :
    ∀ (key : List Char) (acc : ℕ), key ≠ [] →
    key.foldl (fun h c => (h * 37 + c.toNat) % cap) acc < cap := by
  intro key
  induction key with
  | nil => intro acc hne; exact absurd rfl hne
  | cons c cs ih =>
    intro acc _
    cases cs with
    | nil => exact Nat.mod_lt _ hpos
    | cons d ds => exact ih _ (by simp)

theorem hashKey_lt (cap : ℕ) (key : List Char) (hpos : 0 < cap) :
    hashKey cap key < cap := by
  cases key with
  | nil => exact hpos
  | cons c cs => exact foldl_hash_lt cap hpos (c :: cs) 0 (by simp)

theorem mod_shift (cap s u : ℕ) : (s % cap + 1 + u) % cap = (s + (1 + u)) % cap := by
  have h1 : s % cap + 1 + u = s % cap + (1 + u) := by omega
  rw [h1, Nat.mod_add_mod]

theorem getitemLoop_found (h : Hashtable α) (key : List Char)
    (hpos : 0 < h.capacity) :
    ∀ (t : ℕ) (s fuel : ℕ) (v : α), s ≤ h.capacity → t < fuel →
    (∀ u < t, ∃ k' v' live', h.slotAt ((s + u) % h.capacity) = Slot.occ k' v' live' ∧
      ¬(k' = key ∧ live' = true)) →
    h.slotAt ((s + t) % h.capacity) = Slot.occ key v true →
    getitemLoop h key s fuel = Except.ok v := by
  intro t
  induction t with
  | zero =>
    intro s fuel v hs hf hpre hslot
    cases fuel with
    | zero => omega
    | succ fu =>
      rw [show (s + 0) % h.capacity = s % h.capacity from by simp] at hslot
      simp only [getitemLoop]
      rw [normalize_eq_mod _ _ hpos hs]
      simp [hslot]
  | succ t ih =>
    intro s fuel v hs hf hpre hslot
    cases fuel with
    | zero => omega
    | succ fu =>
      obtain ⟨k', v', live', hsl0, hnm⟩ := hpre 0 (by omega)
      rw [show (s + 0) % h.capacity = s % h.capacity from by simp] at hsl0
      simp only [getitemLoop]
      rw [normalize_eq_mod _ _ hpos hs]
      rw [hsl0]
      simp only [if_neg hnm]
      apply ih (s % h.capacity + 1) fu v
        (by have := Nat.mod_lt s hpos; omega) (by omega)
      · intro u hu
        obtain ⟨k2, v2, l2, hsl, hnm2⟩ := hpre (u + 1) (by omega)
        refine ⟨k2, v2, l2, ?_, hnm2⟩
        rw [mod_shift]
        rw [show s + (1 + u) = s + (u + 1) from by omega]
        exact hsl
      · rw [mod_shift]
        rw [show s + (1 + t) = s + (t + 1) from by omega]
        exact hslot

theorem getitemLoop_empty (h : Hashtable α) (key : List Char)
    (hpos : 0 < h.capacity) :
    ∀ (t : ℕ) (s fuel : ℕ), s ≤ h.capacity → t < fuel →
    (∀ u < t, ∃ k' v' live', h.slotAt ((s + u) % h.capacity) = Slot.occ k' v' live' ∧
      ¬(k' = key ∧ live' = true)) →
    h.slotAt ((s + t) % h.capacity) = Slot.empty →
    getitemLoop h key s fuel = Except.ok h.defVal := by
  intro t
  induction t with
  | zero =>
    intro s fuel hs hf hpre hslot
    cases fuel with
    | zero => omega
    | succ fu =>
      rw [show (s + 0) % h.capacity = s % h.capacity from by simp] at hslot
      simp only [getitemLoop]
      rw [normalize_eq_mod _ _ hpos hs]
      simp [hslot]
  | succ t ih =>
    intro s fuel hs hf hpre hslot
    cases fuel with
    | zero => omega
    | succ fu =>
      obtain ⟨k', v', live', hsl0, hnm⟩ := hpre 0 (by omega)
      rw [show (s + 0) % h.capacity = s % h.capacity from by simp] at hsl0
      simp only [getitemLoop]
      rw [normalize_eq_mod _ _ hpos hs]
      rw [hsl0]
      simp only [if_neg hnm]
      apply ih (s % h.capacity + 1) fu
        (by have := Nat.mod_lt s hpos; omega) (by omega)
      · intro u hu
        obtain ⟨k2, v2, l2, hsl, hnm2⟩ := hpre (u + 1) (by omega)
        refine ⟨k2, v2, l2, ?_, hnm2⟩
        rw [mod_shift]
        rw [show s + (1 + u) = s + (u + 1) from by omega]
        exact hsl
      · rw [mod_shift]
        rw [show s + (1 + t) = s + (t + 1) from by omega]
        exact hslot

theorem setitemLoop_insert (h : Hashtable α) (key : List Char) (value : α)
    (hpos : 0 < h.capacity) :
    ∀ (t : ℕ) (s iter fuel : ℕ), s ≤ h.capacity → iter + t < h.capacity → t < fuel →
    (∀ u < t, ∃ k' v', h.slotAt ((s + u) % h.capacity) = Slot.occ k' v' true ∧ k' ≠ key) →
    h.slotAt ((s + t) % h.capacity) = Slot.empty →
    setitemLoop h key value s iter fuel
      = some (Except.ok { h with
          table := h.table.set ((s + t) % h.capacity) (Slot.occ key value true) }) := by
  intro t
  induction t with
  | zero =>
    intro s iter fuel hs hbound hf hpre hslot
    cases fuel with
    | zero => omega
    | succ fu =>
      rw [show (s + 0) % h.capacity = s % h.capacity from by simp] at hslot ⊢
      simp only [setitemLoop]
      rw [if_neg (by omega : ¬ h.capacity ≤ iter)]
      rw [normalize_eq_mod _ _ hpos hs]
      simp [hslot]
  | succ t ih =>
    intro s iter fuel hs hbound hf hpre hslot
    cases fuel with
    | zero => omega
    | succ fu =>
      obtain ⟨k', v', hsl0, hne⟩ := hpre 0 (by omega)
      rw [show (s + 0) % h.capacity = s % h.capacity from by simp] at hsl0
      simp only [setitemLoop]
      rw [if_neg (by omega : ¬ h.capacity ≤ iter)]
      rw [normalize_eq_mod _ _ hpos hs]
      rw [hsl0]
      simp only [if_neg (by simp : ¬ (true : Bool) = false), if_neg hne]
      rw [show (s + (t + 1)) % h.capacity
            = (s % h.capacity + 1 + t) % h.capacity from by
        rw [mod_shift]; congr 1; omega] at hslot ⊢
      apply ih (s % h.capacity + 1) (iter + 1) fu
        (by have := Nat.mod_lt s hpos; omega) (by omega) (by omega)
      · intro u hu
        obtain ⟨k2, v2, hsl, hne2⟩ := hpre (u + 1) (by omega)
        refine ⟨k2, v2, ?_, hne2⟩
        rw [mod_shift]
        rw [show s + (1 + u) = s + (u + 1) from by omega]
        exact hsl
      · exact hslot

end Hashtable

/-! ## The table invariant for insert-only workloads

`Markov._gen_table` inserts each distinct substring exactly once, so the
states its tables go through have no tombstones and no duplicate keys.
`TInv h m` says the table `h` faithfully represents the finite map `m`. -/

namespace Hashtable

variable {α : Type}

/-- Does a slot hold `k` (live or tombstoned)? -/
def slotHasKey (k : List Char) : Slot α → Bool
  | Slot.occ k' _ _ => k' = k
  | Slot.empty => false

/-- Is a slot live? (the predicate counted by `__len__`) -/
def isLive : Slot α → Bool
  | Slot.occ _ _ true => true
  | _ => false

theorem len_eq_countP (h : Hashtable α) : h.len = h.table.countP isLive := rfl

structure TInv (h : Hashtable α) (m : List Char → Option α) : Prop where
  wf : h.table.length = h.capacity
  cap_pos : 0 < h.capacity
  live_all : ∀ k v live, Slot.occ k v live ∈ h.table → live = true
  sound : ∀ k v live, Slot.occ k v live ∈ h.table → m k = some v
  keycount : ∀ k, h.table.countP (slotHasKey k) ≤ 1
  complete : ∀ k v, m k = some v → ∃ t < h.capacity,
    h.slotAt ((hashKey h.capacity k + t) % h.capacity) = Slot.occ k v true ∧
    ∀ u < t, h.slotAt ((hashKey h.capacity k + u) % h.capacity) ≠ Slot.empty

theorem TInv.slot_cases {h : Hashtable α} {m} (inv : TInv h m) (i : ℕ)
    (hi : i < h.capacity) :
    h.slotAt i = Slot.empty ∨
      ∃ k v, h.slotAt i = Slot.occ k v true ∧ m k = some v := by
  have hmem : h.slotAt i ∈ h.table := h.slotAt_mem i (by rw [inv.wf]; exact hi)
  cases hs : h.slotAt i with
  | empty => exact Or.inl rfl
  | occ k v live =>
    rw [hs] at hmem
    have hlive := inv.live_all k v live hmem
    subst hlive
    exact Or.inr ⟨k, v, rfl, inv.sound k v true hmem⟩

/-- Under the invariant, a table with a spare slot has a first empty slot
on every probe path. -/
theorem TInv.first_empty {h : Hashtable α} {m} (inv : TInv h m)
    (hspare : h.len < h.capacity) (s : ℕ) :
    ∃ t < h.capacity, h.slotAt ((s + t) % h.capacity) = Slot.empty ∧
      ∀ u < t, h.slotAt ((s + u) % h.capacity) ≠ Slot.empty := by
  have hcount : h.table.countP isLive < h.table.length := by
    rw [← len_eq_countP, inv.wf]; exact hspare
  obtain ⟨x, hxmem, hxnl⟩ := exists_not_of_countP_lt isLive h.table hcount
  have hxe : x = Slot.empty := by
    cases hx : x with
    | empty => rfl
    | occ k v live =>
      rw [hx] at hxmem
      have := inv.live_all k v live hxmem
      subst this
      rw [hx] at hxnl
      exact absurd rfl hxnl
  subst hxe
  obtain ⟨i, hi, hgi⟩ := List.mem_iff_getElem.1 hxmem
  have hicap : i < h.capacity := by rw [← inv.wf]; exact hi
  have hslot : h.slotAt i = Slot.empty := by
    rw [h.slotAt_eq_getElem i hi]; exact hgi
  obtain ⟨t1, ht1, hoff⟩ := exists_offset h.capacity s i inv.cap_pos hicap
  have hex : ∃ t, h.slotAt ((s + t) % h.capacity) = Slot.empty := by
    exact ⟨t1, by rw [hoff]; exact hslot⟩
  classical
  let t0 := Nat.find hex
  refine ⟨t0, ?_, Nat.find_spec hex, ?_⟩
  · have : t0 ≤ t1 := Nat.find_min' hex (by rw [hoff]; exact hslot)
    omega
  · intro u hu
    exact Nat.find_min hex hu

end Hashtable

namespace Hashtable

variable {α : Type}

theorem setitemCore_insert (h : Hashtable α) (m : List Char → Option α)
    (key : List Char) (value : α)
    (inv : TInv h m) (hfresh : m key = none) (hspare : h.len < h.capacity) :
    ∃ h', setitemCore h key value = Except.ok h' ∧
      TInv h' (fun k => if k = key then some value else m k) ∧
      h'.len = h.len + 1 ∧ h'.capacity = h.capacity ∧ h'.defVal = h.defVal ∧
      h'.loadfactorNum = h.loadfactorNum ∧ h'.loadfactorDen = h.loadfactorDen ∧
      h'.growthFactor = h.growthFactor := by
  obtain ⟨t0, ht0cap, hemp, hpre⟩ := inv.first_empty hspare (hashKey h.capacity key)
  have hslt : hashKey h.capacity key < h.capacity := hashKey_lt _ _ inv.cap_pos
  have hprefix : ∀ u < t0, ∃ k' v',
      h.slotAt ((hashKey h.capacity key + u) % h.capacity) = Slot.occ k' v' true ∧
      k' ≠ key := by
    intro u hu
    have hne := hpre u hu
    rcases inv.slot_cases ((hashKey h.capacity key + u) % h.capacity)
        (Nat.mod_lt _ inv.cap_pos) with he | ⟨k', v', hocc, hmk⟩
    · exact absurd he hne
    · refine ⟨k', v', hocc, ?_⟩
      intro hk
      rw [hk, hfresh] at hmk
      cases hmk
  have hi0cap : (hashKey h.capacity key + t0) % h.capacity < h.capacity :=
    Nat.mod_lt _ inv.cap_pos
  have hi0len : (hashKey h.capacity key + t0) % h.capacity < h.table.length := by
    rw [inv.wf]; exact hi0cap
  refine ⟨{ h with table := h.table.set ((hashKey h.capacity key + t0) % h.capacity) (Slot.occ key value true) }, ?_, ?_⟩
  · -- execution
    cases Nat.eq_zero_or_pos t0 with
    | inl h0 =>
      subst h0
      have hmod : (hashKey h.capacity key + 0) % h.capacity = hashKey h.capacity key := by
        rw [Nat.add_zero, Nat.mod_eq_of_lt hslt]
      have hps : h.slotAt (hashKey h.capacity key) = Slot.empty := by
        rw [← hmod]; exact hemp
      simp only [setitemCore, hps, hmod]
    | inr hpos0 =>
      obtain ⟨k', v', hocc, hne⟩ := hprefix 0 hpos0
      have hmod : (hashKey h.capacity key + 0) % h.capacity = hashKey h.capacity key := by
        rw [Nat.add_zero, Nat.mod_eq_of_lt hslt]
      rw [hmod] at hocc
      have hcond : ¬ ((true : Bool) = false ∨ k' = key) := by
        intro hc
        rcases hc with hc | hc
        · cases hc
        · exact hne hc
      have hloop := setitemLoop_insert h key value inv.cap_pos t0
        (hashKey h.capacity key) 0 (h.capacity + 1) (le_of_lt hslt)
        (by omega) (by omega) hprefix hemp
      simp only [setitemCore, hocc, if_neg hcond, hloop]
  · -- the new state satisfies the invariant
    have hget0 : h.table.get ⟨(hashKey h.capacity key + t0) % h.capacity, hi0len⟩
        = Slot.empty := by
      rw [List.get_eq_getElem, ← slotAt_eq_getElem]; exact hemp
    have hcount := countP_set_eq (isLive (α := α)) h.table
      ((hashKey h.capacity key + t0) % h.capacity) (Slot.occ key value true) hi0len
    rw [hget0] at hcount
    have hlen' : ({ h with table := h.table.set ((hashKey h.capacity key + t0) % h.capacity) (Slot.occ key value true) } : Hashtable α).len = h.len + 1 := by
      have he1 : (if isLive (Slot.empty : Slot α) = true then 1 else 0) = 0 := rfl
      have he2 : (if isLive (Slot.occ key value true) = true then 1 else 0) = 1 := rfl
      rw [he1, he2] at hcount
      show List.countP isLive (h.table.set ((hashKey h.capacity key + t0) % h.capacity) (Slot.occ key value true)) = List.countP isLive h.table + 1
      omega
    refine ⟨?_, hlen', rfl, rfl, rfl, rfl, rfl⟩
    constructor
    · simp [List.length_set, inv.wf]
    · exact inv.cap_pos
    · -- live_all
      intro k v live hmem
      rcases List.mem_or_eq_of_mem_set hmem with hold | hnew
      · exact inv.live_all k v live hold
      · injection hnew with h1 h2 h3
    · -- sound
      intro k v live hmem
      rcases List.mem_or_eq_of_mem_set hmem with hold | hnew
      · have hmk := inv.sound k v live hold
        have hkne : k ≠ key := by
          intro hk
          rw [hk, hfresh] at hmk
          cases hmk
        rw [if_neg hkne]
        exact hmk
      · injection hnew with h1 h2 h3
        subst h1; subst h2
        rw [if_pos rfl]
    · -- keycount
      intro k'
      have hc := countP_set_eq (slotHasKey (α := α) k') h.table
        ((hashKey h.capacity key + t0) % h.capacity) (Slot.occ key value true) hi0len
      rw [hget0] at hc
      have hempty0 : (if slotHasKey k' (Slot.empty : Slot α) = true then 1 else 0) = 0 := rfl
      rw [hempty0] at hc
      show List.countP (slotHasKey k') (h.table.set ((hashKey h.capacity key + t0) % h.capacity) (Slot.occ key value true)) ≤ 1
      by_cases hk : key = k'
      · have hone : (if slotHasKey k' (Slot.occ key value true) = true then 1 else 0) = 1 := by
          simp [slotHasKey, hk]
        rw [hone] at hc
        have hzero : h.table.countP (slotHasKey k') = 0 := by
          rw [List.countP_eq_zero]
          intro x hx
          cases hxs : x with
          | empty => simp [slotHasKey]
          | occ k2 v2 l2 =>
            simp only [slotHasKey]
            rw [hxs] at hx
            have hs2 := inv.sound k2 v2 l2 hx
            intro hdec
            have hk2 : k2 = k' := by simpa using hdec
            rw [hk2, ← hk, hfresh] at hs2
            cases hs2
        omega
      · have hzeroif : (if slotHasKey k' (Slot.occ key value true) = true then 1 else 0) = 0 := by
          simp [slotHasKey, hk]
        rw [hzeroif] at hc
        have := inv.keycount k'
        omega
    · -- complete
      intro k v hmk
      by_cases hk : k = key
      · subst hk
        rw [if_pos rfl] at hmk
        injection hmk with hv
        subst hv
        refine ⟨t0, ht0cap, ?_, ?_⟩
        · exact slotAt_set_self h _ _ hi0len
        · intro u hu
          have hne : (hashKey h.capacity k + u) % h.capacity
              ≠ (hashKey h.capacity k + t0) % h.capacity := by
            intro he
            have := offset_inj h.capacity (hashKey h.capacity k) u t0
              (by omega) ht0cap he
            omega
          rw [slotAt_set_ne h _ _ _ (Ne.symm hne)]
          obtain ⟨k2, v2, hocc2, _⟩ := hprefix u hu
          rw [hocc2]
          intro hcon
          cases hcon
      · rw [if_neg hk] at hmk
        obtain ⟨t, htcap, hsl, hpre2⟩ := inv.complete k v hmk
        have hne : (hashKey h.capacity k + t) % h.capacity
            ≠ (hashKey h.capacity key + t0) % h.capacity := by
          intro he
          rw [he, hemp] at hsl
          cases hsl
        refine ⟨t, htcap, ?_, ?_⟩
        · rw [slotAt_set_ne h _ _ _ (Ne.symm hne)]
          exact hsl
        · intro u hu
          by_cases hji : (hashKey h.capacity k + u) % h.capacity
              = (hashKey h.capacity key + t0) % h.capacity
          · rw [hji, slotAt_set_self h _ _ hi0len]
            intro hcon
            cases hcon
          · rw [slotAt_set_ne h _ _ _ (Ne.symm hji)]
            exact hpre2 u hu

end Hashtable

namespace Hashtable

variable {α : Type}

/-- Under the invariant (with a spare slot so the scan terminates),
`__getitem__` returns the mapped value, or the default when absent. -/
theorem getitem_tinv (h : Hashtable α) (m : List Char → Option α) (key : List Char)
    (inv : TInv h m) (hspare : h.len < h.capacity) :
    getitem h key = Except.ok ((m key).getD h.defVal) := by
  have hslt : hashKey h.capacity key < h.capacity := hashKey_lt _ _ inv.cap_pos
  have hmod0 : (hashKey h.capacity key + 0) % h.capacity = hashKey h.capacity key := by
    rw [Nat.add_zero, Nat.mod_eq_of_lt hslt]
  cases hmk : m key with
  | some v =>
    obtain ⟨t, htcap, hsl, hpre⟩ := inv.complete key v hmk
    -- slots strictly before the hit are occupied by other keys
    have hprefix : ∀ u < t, ∃ k' v' live',
        h.slotAt ((hashKey h.capacity key + u) % h.capacity) = Slot.occ k' v' live' ∧
        ¬(k' = key ∧ live' = true) := by
      intro u hu
      have hne := hpre u hu
      rcases inv.slot_cases ((hashKey h.capacity key + u) % h.capacity)
          (Nat.mod_lt _ inv.cap_pos) with he | ⟨k', v', hocc, hmk2⟩
      · exact absurd he hne
      · refine ⟨k', v', true, hocc, ?_⟩
        rintro ⟨hkk, -⟩
        rw [hkk] at hocc
        -- two distinct slots would hold `key`
        have hneidx : (hashKey h.capacity key + u) % h.capacity
            ≠ (hashKey h.capacity key + t) % h.capacity := by
          intro he
          have := offset_inj h.capacity (hashKey h.capacity key) u t
            (by omega) htcap he
          omega
        have hiu : (hashKey h.capacity key + u) % h.capacity < h.table.length := by
          rw [inv.wf]; exact Nat.mod_lt _ inv.cap_pos
        have hit : (hashKey h.capacity key + t) % h.capacity < h.table.length := by
          rw [inv.wf]; exact Nat.mod_lt _ inv.cap_pos
        have h2 := two_le_countP (slotHasKey key) h.table
          ((hashKey h.capacity key + u) % h.capacity)
          ((hashKey h.capacity key + t) % h.capacity) hneidx hiu hit
          (by rw [List.get_eq_getElem, ← slotAt_eq_getElem, hocc]; simp [slotHasKey])
          (by rw [List.get_eq_getElem, ← slotAt_eq_getElem, hsl]; simp [slotHasKey])
        have := inv.keycount key
        omega
    cases Nat.eq_zero_or_pos t with
    | inl h0 =>
      subst h0
      rw [hmod0] at hsl
      simp only [getitem, hsl, if_pos rfl]
      rfl
    | inr hpos0 =>
      obtain ⟨k', v', live', hocc, hnm⟩ := hprefix 0 hpos0
      rw [hmod0] at hocc
      have hlive : live' = true := by
        have hmem : Slot.occ k' v' live' ∈ h.table := by
          rw [← hocc]
          exact h.slotAt_mem _ (by rw [inv.wf]; exact hslt)
        exact inv.live_all k' v' live' hmem
      subst hlive
      have hkne : k' ≠ key := by
        intro hkk
        exact hnm ⟨hkk, rfl⟩
      have hloop := getitemLoop_found h key inv.cap_pos t
        (hashKey h.capacity key) h.capacity v (le_of_lt hslt) htcap hprefix hsl
      simp only [getitem, hocc, if_neg hkne, hloop]
      rfl
  | none =>
    obtain ⟨t, htcap, hemp, hpre⟩ := inv.first_empty hspare (hashKey h.capacity key)
    have hprefix : ∀ u < t, ∃ k' v' live',
        h.slotAt ((hashKey h.capacity key + u) % h.capacity) = Slot.occ k' v' live' ∧
        ¬(k' = key ∧ live' = true) := by
      intro u hu
      have hne := hpre u hu
      rcases inv.slot_cases ((hashKey h.capacity key + u) % h.capacity)
          (Nat.mod_lt _ inv.cap_pos) with he | ⟨k', v', hocc, hmk2⟩
      · exact absurd he hne
      · refine ⟨k', v', true, hocc, ?_⟩
        rintro ⟨hkk, -⟩
        rw [hkk] at hmk2
        rw [hmk] at hmk2
        cases hmk2
    have hloop := getitemLoop_empty h key inv.cap_pos t
      (hashKey h.capacity key) h.capacity (le_of_lt hslt) htcap hprefix hemp
    cases Nat.eq_zero_or_pos t with
    | inl h0 =>
      subst h0
      rw [hmod0] at hemp
      simp only [getitem, hemp, hloop]
      rfl
    | inr hpos0 =>
      obtain ⟨k', v', live', hocc, hnm⟩ := hprefix 0 hpos0
      rw [hmod0] at hocc
      have hlive : live' = true := by
        have hmem : Slot.occ k' v' live' ∈ h.table := by
          rw [← hocc]
          exact h.slotAt_mem _ (by rw [inv.wf]; exact hslt)
        exact inv.live_all k' v' live' hmem
      subst hlive
      have hkne : k' ≠ key := by
        intro hkk
        exact hnm ⟨hkk, rfl⟩
      simp only [getitem, hocc, if_neg hkne, hloop]
      rfl

end Hashtable

namespace Hashtable

variable {α : Type}

theorem TInv_of_replicate (h : Hashtable α) (hpos : 0 < h.capacity)
    (htab : h.table = List.replicate h.capacity Slot.empty) :
    TInv h (fun _ => none) := by
  constructor
  · rw [htab, List.length_replicate]
  · exact hpos
  · intro k v live hmem
    rw [htab] at hmem
    have := List.eq_of_mem_replicate hmem
    cases this
  · intro k v live hmem
    rw [htab] at hmem
    have := List.eq_of_mem_replicate hmem
    cases this
  · intro k
    rw [htab]
    have : (List.replicate h.capacity (Slot.empty : Slot α)).countP (slotHasKey k) = 0 := by
      rw [List.countP_eq_zero]
      intro x hx
      rw [List.eq_of_mem_replicate hx]
      simp [slotHasKey]
    omega
  · intro k v hkv
    cases hkv

theorem len_of_replicate (h : Hashtable α)
    (htab : h.table = List.replicate h.capacity Slot.empty) : h.len = 0 := by
  rw [len_eq_countP, htab, List.countP_eq_zero]
  intro x hx
  rw [List.eq_of_mem_replicate hx]
  exact Bool.false_ne_true

/-- The map obtained by writing all pairs of `L` (left to right) on top of `m`. -/
def extendMap (m : List Char → Option α) (L : List (List Char × α)) :
    List Char → Option α :=
  fun k => match alookup L k with
  | some v => some v
  | none => m k

theorem extendMap_nil (m : List Char → Option α) : extendMap m [] = m := by
  funext k
  rfl

theorem extendMap_cons (m : List Char → Option α) (k0 : List Char) (v0 : α)
    (L : List (List Char × α)) (hk0 : ∀ p ∈ L, p.1 ≠ k0) :
    extendMap (fun k => if k = k0 then some v0 else m k) L
      = extendMap m ((k0, v0) :: L) := by
  funext k
  by_cases hk : k = k0
  · subst hk
    have hnone : alookup L k = none := alookup_eq_none L k hk0
    simp [extendMap, alookup, hnone]
  · simp only [extendMap, alookup]
    rw [if_neg (show ¬ k0 = k from fun hc => hk hc.symm)]
    cases halo : alookup L k with
    | some v => rfl
    | none => simp [if_neg hk]

theorem foldCore_build (L : List (List Char × α)) :
    ∀ (h : Hashtable α) (m : List Char → Option α), TInv h m →
    (L.map Prod.fst).Nodup →
    (∀ p ∈ L, m p.1 = none) →
    h.len + L.length ≤ h.capacity →
    ∃ h', L.foldlM (fun acc kv => setitemCore acc kv.1 kv.2) h = Except.ok h' ∧
      TInv h' (extendMap m L) ∧ h'.len = h.len + L.length ∧
      h'.capacity = h.capacity ∧ h'.defVal = h.defVal ∧
      h'.loadfactorNum = h.loadfactorNum ∧ h'.loadfactorDen = h.loadfactorDen ∧
      h'.growthFactor = h.growthFactor := by
  induction L with
  | nil =>
    intro h m inv hnd hfr hbound
    refine ⟨h, rfl, ?_, by simp, rfl, rfl, rfl, rfl, rfl⟩
    rw [extendMap_nil]
    exact inv
  | cons p L' ih =>
    intro h m inv hnd hfr hbound
    obtain ⟨k0, v0⟩ := p
    have hfresh : m k0 = none := hfr (k0, v0) (by simp)
    have hspare : h.len < h.capacity := by
      simp only [List.length_cons] at hbound
      omega
    obtain ⟨h1, hexec, hinv1, hlen1, hcap1, hdef1, hn1, hd1, hg1⟩ :=
      setitemCore_insert h m k0 v0 inv hfresh hspare
    simp only [List.map_cons, List.nodup_cons] at hnd
    have hk0notin : ∀ q ∈ L', q.1 ≠ k0 := by
      intro q hq hqe
      exact hnd.1 (by rw [← hqe]; exact List.mem_map.2 ⟨q, hq, rfl⟩)
    have hfr' : ∀ q ∈ L', (fun k => if k = k0 then some v0 else m k) q.1 = none := by
      intro q hq
      show (if q.1 = k0 then some v0 else m q.1) = none
      rw [if_neg (hk0notin q hq)]
      exact hfr q (by simp [hq])
    have hbound' : h1.len + L'.length ≤ h1.capacity := by
      rw [hlen1, hcap1]
      simp only [List.length_cons] at hbound
      omega
    obtain ⟨h2, hexec2, hinv2, hlen2, hcap2, hdef2, hn2, hd2, hg2⟩ :=
      ih h1 _ hinv1 hnd.2 hfr' hbound'
    refine ⟨h2, ?_, ?_, ?_, ?_, ?_, ?_, ?_, ?_⟩
    · rw [List.foldlM_cons, hexec]
      exact hexec2
    · rw [← extendMap_cons m k0 v0 L' hk0notin]
      exact hinv2
    · rw [hlen2, hlen1]; simp; omega
    · rw [hcap2, hcap1]
    · rw [hdef2, hdef1]
    · rw [hn2, hn1]
    · rw [hd2, hd1]
    · rw [hg2, hg1]

end Hashtable

namespace Hashtable

variable {α : Type}

theorem filtered_length (l : List (Slot α)) :
    (l.filterMap (fun s => match s with
      | Slot.occ k v true => some (k, v)
      | _ => none)).length = l.countP isLive := by
  induction l with
  | nil => rfl
  | cons x xs ih =>
    cases x with
    | empty => simpa [List.countP_cons, isLive] using ih
    | occ k v live =>
      cases live with
      | false => simpa [List.countP_cons, isLive] using ih
      | true => simpa [List.countP_cons, isLive] using ih

theorem nodup_of_countP_le_one {β : Type} (l : List β) [DecidableEq β]
    (hc : ∀ a, l.countP (fun x => x = a) ≤ 1) : l.Nodup := by
  induction l with
  | nil => exact List.nodup_nil
  | cons x xs ih =>
    rw [List.nodup_cons]
    constructor
    · intro hmem
      have hpos : 0 < xs.countP (fun y => y = x) := by
        rw [List.countP_pos_iff]
        exact ⟨x, hmem, by simp⟩
      have hcx := hc x
      rw [List.countP_cons, if_pos (by simp : ((fun y => decide (y = x)) x) = true)] at hcx
      omega
    · apply ih
      intro a
      have hca := hc a
      rw [List.countP_cons] at hca
      exact le_trans (Nat.le_add_right _ _) hca

theorem filtered_key_count (l : List (Slot α)) (k : List Char) :
    ((l.filterMap (fun s => match s with
      | Slot.occ k' v true => some (k', v)
      | _ => none)).map Prod.fst).countP (fun x => x = k)
      ≤ l.countP (slotHasKey k) := by
  induction l with
  | nil => simp
  | cons x xs ih =>
    cases x with
    | empty =>
      simpa [List.countP_cons, slotHasKey] using ih
    | occ k' v live =>
      cases live with
      | false =>
        have hstep : ((Slot.occ k' v false :: xs).filterMap (fun s => match s with
            | Slot.occ k2 v2 true => some (k2, v2)
            | _ => none))
            = xs.filterMap (fun s => match s with
            | Slot.occ k2 v2 true => some (k2, v2)
            | _ => none) := by
          simp
        rw [hstep, List.countP_cons]
        exact le_trans ih (Nat.le_add_right _ _)
      | true =>
        have hstep : ((Slot.occ k' v true :: xs).filterMap (fun s => match s with
            | Slot.occ k2 v2 true => some (k2, v2)
            | _ => none)).map Prod.fst
            = k' :: ((xs.filterMap (fun s => match s with
            | Slot.occ k2 v2 true => some (k2, v2)
            | _ => none)).map Prod.fst) := by
          simp
        rw [hstep, List.countP_cons, List.countP_cons]
        by_cases hk : k' = k
        · rw [if_pos (by simp [hk] : ((fun x => decide (x = k)) k') = true),
            if_pos (by simp [slotHasKey, hk] : slotHasKey k (Slot.occ k' v true) = true)]
          exact Nat.add_le_add ih (le_refl 1)
        · rw [if_neg (by simp [hk] : ¬ ((fun x => decide (x = k)) k') = true),
            if_neg (by simp [slotHasKey, hk] : ¬ slotHasKey k (Slot.occ k' v true) = true)]
          simpa using ih

theorem filtered_mem (l : List (Slot α)) (k : List Char) (v : α) :
    (k, v) ∈ l.filterMap (fun s => match s with
      | Slot.occ k' v' true => some (k', v')
      | _ => none) ↔ Slot.occ k v true ∈ l := by
  rw [List.mem_filterMap]
  constructor
  · rintro ⟨s, hsmem, hs⟩
    cases s with
    | empty => cases hs
    | occ k2 v2 l2 =>
      cases l2 with
      | false => cases hs
      | true =>
        injection hs with h1
        injection h1 with h2 h3
        subst h2; subst h3
        exact hsmem
  · intro hmem
    exact ⟨Slot.occ k v true, hmem, rfl⟩

theorem rehash_tinv (h : Hashtable α) (m : List Char → Option α) (inv : TInv h m)
    (hlen : h.len ≤ h.capacity) (hg : 1 ≤ h.growthFactor) :
    ∃ h', rehash h = Except.ok h' ∧ TInv h' m ∧ h'.len = h.len ∧
      h'.capacity = h.capacity * h.growthFactor ∧ h'.defVal = h.defVal ∧
      h'.loadfactorNum = h.loadfactorNum ∧ h'.loadfactorDen = h.loadfactorDen ∧
      h'.growthFactor = h.growthFactor := by
  have hcappos' : 0 < h.capacity * h.growthFactor :=
    Nat.mul_pos inv.cap_pos hg
  have hfreshinv : TInv ({ h with capacity := h.capacity * h.growthFactor, table := List.replicate (h.capacity * h.growthFactor) Slot.empty } : Hashtable α) (fun _ => none) := TInv_of_replicate _ hcappos' rfl
  have hfreshlen : ({ h with capacity := h.capacity * h.growthFactor, table := List.replicate (h.capacity * h.growthFactor) Slot.empty } : Hashtable α).len = 0 := len_of_replicate _ rfl
  have hflen : (h.table.filterMap (fun s => match s with
      | Slot.occ k v true => some (k, v)
      | _ => none)).length = h.len := by
    rw [filtered_length, ← len_eq_countP]
  have hnd : ((h.table.filterMap (fun s => match s with
      | Slot.occ k v true => some (k, v)
      | _ => none)).map Prod.fst).Nodup := by
    apply nodup_of_countP_le_one
    intro k
    exact le_trans (filtered_key_count h.table k) (inv.keycount k)
  obtain ⟨h', hexec, hinv, hlen', hcap', hdef', hn', hd', hg'⟩ :=
    foldCore_build (h.table.filterMap (fun s => match s with
      | Slot.occ k v true => some (k, v)
      | _ => none))
      ({ h with capacity := h.capacity * h.growthFactor, table := List.replicate (h.capacity * h.growthFactor) Slot.empty })
      (fun _ => none) hfreshinv hnd (fun p _ => rfl)
      (by
        rw [hfreshlen, hflen]
        show 0 + h.len ≤ h.capacity * h.growthFactor
        calc 0 + h.len = h.len := by omega
        _ ≤ h.capacity := hlen
        _ ≤ h.capacity * h.growthFactor := Nat.le_mul_of_pos_right _ hg)
  have hmap : extendMap (fun _ => none) (h.table.filterMap (fun s => match s with
      | Slot.occ k v true => some (k, v)
      | _ => none)) = m := by
    funext k
    cases hmk : m k with
    | some v =>
      obtain ⟨t, htcap, hsl, -⟩ := inv.complete k v hmk
      have hmem : Slot.occ k v true ∈ h.table := by
        rw [← hsl]
        exact h.slotAt_mem _ (by rw [inv.wf]; exact Nat.mod_lt _ inv.cap_pos)
      have hpmem : (k, v) ∈ h.table.filterMap (fun s => match s with
          | Slot.occ k' v' true => some (k', v')
          | _ => none) := (filtered_mem h.table k v).2 hmem
      have := alookup_of_mem_nodup _ k v hpmem hnd
      simp [extendMap, this]
    | none =>
      have hnotin : ∀ p ∈ h.table.filterMap (fun s => match s with
          | Slot.occ k' v' true => some (k', v')
          | _ => none), p.1 ≠ k := by
        rintro ⟨k2, v2⟩ hp hk2
        have hk2' : k2 = k := hk2
        have hmem := (filtered_mem h.table k2 v2).1 hp
        have hs := inv.sound k2 v2 true hmem
        rw [hk2', hmk] at hs
        cases hs
      have := alookup_eq_none _ k hnotin
      simp [extendMap, this]
  refine ⟨h', ?_, ?_, ?_, ?_, ?_, ?_, ?_, ?_⟩
  · show rehash h = Except.ok h'
    simp only [rehash]
    exact hexec
  · rw [← hmap]; exact hinv
  · rw [hlen', hfreshlen, hflen]; omega
  · rw [hcap']
  · rw [hdef']
  · rw [hn']
  · rw [hd']
  · rw [hg']

end Hashtable

namespace Hashtable

variable {α : Type}

/-- One full `__setitem__` call inserting a fresh key into a table holding
the parameters `Markov.__init__` uses (load factor 1/2, growth factor 2):
no error is raised, the map gains the key, and the load bookkeeping
`2 * len ≤ capacity + 2` is maintained. -/
theorem setitem_insert (h : Hashtable α) (m : List Char → Option α)
    (key : List Char) (value : α)
    (inv : TInv h m) (hfresh : m key = none)
    (hload : 2 * h.len ≤ h.capacity + 2) (hcap3 : 3 ≤ h.capacity)
    (hnum : h.loadfactorNum = 1) (hden : h.loadfactorDen = 2)
    (hg : h.growthFactor = 2) :
    ∃ h', setitem h key value = Except.ok h' ∧
      TInv h' (fun k => if k = key then some value else m k) ∧
      h'.len = h.len + 1 ∧ 2 * h'.len ≤ h'.capacity + 2 ∧ 3 ≤ h'.capacity ∧
      h'.defVal = h.defVal ∧ h'.loadfactorNum = 1 ∧ h'.loadfactorDen = 2 ∧
      h'.growthFactor = 2 := by
  by_cases htrig : h.loadfactorNum * h.capacity ≤ h.loadfactorDen * h.len
  · -- growth pass first
    rw [hnum, hden] at htrig
    obtain ⟨h1, hre, hinv1, hlen1, hcap1, hdef1, hn1, hd1, hg1⟩ :=
      rehash_tinv h m inv (by omega) (by omega)
    have hspare1 : h1.len < h1.capacity := by
      rw [hlen1, hcap1, hg]
      omega
    obtain ⟨h2, hcore, hinv2, hlen2, hcap2, hdef2, hn2, hd2, hg2⟩ :=
      setitemCore_insert h1 m key value hinv1 hfresh hspare1
    refine ⟨h2, ?_, hinv2, ?_, ?_, ?_, ?_, ?_, ?_, ?_⟩
    · rw [setitem, if_pos (by rw [hnum, hden]; exact htrig), hre]
      exact hcore
    · rw [hlen2, hlen1]
    · rw [hlen2, hlen1, hcap2, hcap1, hg]
      omega
    · rw [hcap2, hcap1, hg]
      omega
    · rw [hdef2, hdef1]
    · rw [hn2, hn1, hnum]
    · rw [hd2, hd1, hden]
    · rw [hg2, hg1, hg]
  · -- no growth pass
    rw [hnum, hden] at htrig
    have hspare : h.len < h.capacity := by omega
    obtain ⟨h2, hcore, hinv2, hlen2, hcap2, hdef2, hn2, hd2, hg2⟩ :=
      setitemCore_insert h m key value inv hfresh hspare
    refine ⟨h2, ?_, hinv2, hlen2, ?_, ?_, hdef2, ?_, ?_, ?_⟩
    · rw [setitem, if_neg (by rw [hnum, hden]; exact htrig)]
      exact hcore
    · rw [hlen2, hcap2]
      omega
    · rw [hcap2]
      exact hcap3
    · rw [hn2, hnum]
    · rw [hd2, hden]
    · rw [hg2, hg]

/-- Folding `__setitem__` over a list of fresh distinct keys builds the
corresponding map. -/
theorem foldSetitem_build (L : List (List Char × α)) :
    ∀ (h : Hashtable α) (m : List Char → Option α), TInv h m →
    (L.map Prod.fst).Nodup →
    (∀ p ∈ L, m p.1 = none) →
    2 * h.len ≤ h.capacity + 2 → 3 ≤ h.capacity →
    h.loadfactorNum = 1 → h.loadfactorDen = 2 → h.growthFactor = 2 →
    ∃ h', L.foldlM (fun acc kv => setitem acc kv.1 kv.2) h = Except.ok h' ∧
      TInv h' (extendMap m L) ∧ 2 * h'.len ≤ h'.capacity + 2 ∧ 3 ≤ h'.capacity ∧
      h'.defVal = h.defVal ∧ h'.loadfactorNum = 1 ∧ h'.loadfactorDen = 2 ∧
      h'.growthFactor = 2 := by
  induction L with
  | nil =>
    intro h m inv hnd hfr hload hcap3 hnum hden hg
    refine ⟨h, rfl, ?_, hload, hcap3, rfl, hnum, hden, hg⟩
    rw [extendMap_nil]
    exact inv
  | cons p L' ih =>
    intro h m inv hnd hfr hload hcap3 hnum hden hg
    obtain ⟨k0, v0⟩ := p
    have hfresh : m k0 = none := hfr (k0, v0) (by simp)
    obtain ⟨h1, hexec, hinv1, hlen1, hload1, hcap31, hdef1, hn1, hd1, hg1⟩ :=
      setitem_insert h m k0 v0 inv hfresh hload hcap3 hnum hden hg
    simp only [List.map_cons, List.nodup_cons] at hnd
    have hk0notin : ∀ q ∈ L', q.1 ≠ k0 := by
      intro q hq hqe
      exact hnd.1 (by rw [← hqe]; exact List.mem_map.2 ⟨q, hq, rfl⟩)
    have hfr' : ∀ q ∈ L', (fun k => if k = k0 then some v0 else m k) q.1 = none := by
      intro q hq
      show (if q.1 = k0 then some v0 else m q.1) = none
      rw [if_neg (hk0notin q hq)]
      exact hfr q (by simp [hq])
    obtain ⟨h2, hexec2, hinv2, hload2, hcap32, hdef2, hn2, hd2, hg2⟩ :=
      ih h1 _ hinv1 hnd.2 hfr' hload1 hcap31 hn1 hd1 hg1
    refine ⟨h2, ?_, ?_, hload2, hcap32, ?_, hn2, hd2, hg2⟩
    · rw [List.foldlM_cons, hexec]
      exact hexec2
    · rw [← extendMap_cons m k0 v0 L' hk0notin]
      exact hinv2
    · rw [hdef2, hdef1]

end Hashtable

/-! ## From `_gen_table` to the table invariant -/

open Hashtable

theorem insertKeySorted_perm (x : List Char) (l : List (List Char)) :
    (insertKeySorted x l).Perm (x :: l) := by
  induction l with
  | nil => exact List.Perm.refl _
  | cons y ys ih =>
    rw [insertKeySorted]
    by_cases hle : keyLe x y
    · rw [if_pos hle]
    · rw [if_neg hle]
      exact (List.Perm.cons y ih).trans (List.Perm.swap x y ys)

theorem sortKeys_perm (l : List (List Char)) : (sortKeys l).Perm l := by
  induction l with
  | nil => exact List.Perm.refl _
  | cons x xs ih =>
    rw [sortKeys, List.foldr_cons]
    exact (insertKeySorted_perm _ _).trans (List.Perm.cons x ih)

theorem npUnique_nodup (l : List (List Char)) : (npUnique l).Nodup :=
  ((sortKeys_perm l.dedup).nodup_iff).2 (List.nodup_dedup l)

theorem npUnique_mem (l : List (List Char)) (s : List Char) :
    s ∈ npUnique l ↔ s ∈ l := by
  rw [npUnique]
  rw [(sortKeys_perm l.dedup).mem_iff]
  exact List.mem_dedup

theorem alookup_map_graph (l : List (List Char)) (g : List Char → ℕ) (s : List Char) :
    alookup (l.map (fun x => (x, g x))) s = if s ∈ l then some (g s) else none := by
  induction l with
  | nil => simp [alookup]
  | cons x xs ih =>
    simp only [List.map_cons, alookup]
    by_cases hx : x = s
    · subst hx
      simp
    · rw [if_neg hx, ih]
      by_cases hmem : s ∈ xs
      · rw [if_pos hmem, if_pos (by simp [hmem])]
      · rw [if_neg hmem, if_neg (by simp [hmem, Ne.symm hx])]

theorem extendMap_none {α : Type} (L : List (List Char × α)) :
    extendMap (fun _ => none) L = fun k => alookup L k := by
  funext k
  cases h : alookup L k with
  | some v => simp [extendMap, h]
  | none => simp [extendMap, h]

theorem genTableEntries_ok (k : ℕ) (text : List Char)
    (entries : List (List Char × ℕ))
    (hok : genTableEntries k text = Except.ok entries) :
    ∃ pairs, genPairs k text = Except.ok pairs ∧
      entries = (npUnique (pairs.flatMap (fun p => [p.1, p.2]))).map
        (fun s => (s, (pairs.flatMap (fun p => [p.1, p.2])).count s)) := by
  cases hp : genPairs k text with
  | error e =>
    rw [genTableEntries, hp] at hok
    cases hok
  | ok pairs =>
    rw [genTableEntries, hp] at hok
    refine ⟨pairs, rfl, ?_⟩
    have : Except.ok ((npUnique (pairs.flatMap (fun p => [p.1, p.2]))).map
        (fun s => (s, (pairs.flatMap (fun p => [p.1, p.2])).count s)))
        = (Except.ok entries : Except Fail _) := hok
    injection this with he
    exact he.symm

theorem entries_fst_nodup (k : ℕ) (text : List Char)
    (entries : List (List Char × ℕ))
    (hok : genTableEntries k text = Except.ok entries) :
    (entries.map Prod.fst).Nodup := by
  obtain ⟨pairs, -, hent⟩ := genTableEntries_ok k text entries hok
  rw [hent]
  have hmm2 : ((npUnique (pairs.flatMap (fun p => [p.1, p.2]))).map
      (fun s => (s, (pairs.flatMap (fun p => [p.1, p.2])).count s))).map Prod.fst
      = npUnique (pairs.flatMap (fun p => [p.1, p.2])) := by
    rw [List.map_map]
    have hcomp : (Prod.fst ∘ fun s => (s, (pairs.flatMap (fun p => [p.1, p.2])).count s))
        = id := by
      funext s
      rfl
    rw [hcomp, List.map_id]
  rw [hmm2]
  exact npUnique_nodup _

theorem entries_alookup (k : ℕ) (text : List Char)
    (entries : List (List Char × ℕ))
    (hok : genTableEntries k text = Except.ok entries) (s : List Char) :
    ∃ pairs, genPairs k text = Except.ok pairs ∧
      alookup entries s = (if s ∈ pairs.flatMap (fun p => [p.1, p.2])
        then some ((pairs.flatMap (fun p => [p.1, p.2])).count s) else none) := by
  obtain ⟨pairs, hp, hent⟩ := genTableEntries_ok k text entries hok
  refine ⟨pairs, hp, ?_⟩
  rw [hent, alookup_map_graph]
  by_cases hmem : s ∈ pairs.flatMap (fun p => [p.1, p.2])
  · rw [if_pos ((npUnique_mem _ s).2 hmem), if_pos hmem]
  · rw [if_neg (fun hc => hmem ((npUnique_mem _ s).1 hc)), if_neg hmem]

theorem except_bind_ok {ε β γ : Type} (a : β) (f : β → Except ε γ) :
    (Except.ok a : Except ε β) >>= f = f a := rfl

theorem mkMarkov_ht (k : ℕ) (text : List Char) (entries : List (List Char × ℕ))
    (hok : genTableEntries k text = Except.ok entries) :
    ∃ ht : Hashtable ℕ,
      mkMarkov k text 0 = Except.ok { k := k, alphabet_len := text.dedup.length, table := MTable.hashtable ht } ∧
      TInv ht (fun s => alookup entries s) ∧
      ht.len < ht.capacity ∧ ht.defVal = 0 := by
  have hnd := entries_fst_nodup k text entries hok
  have hinv0 : TInv markovFreshTable (fun _ => none) :=
    TInv_of_replicate _ (by decide) rfl
  have hlen0 : markovFreshTable.len = 0 := len_of_replicate _ rfl
  obtain ⟨h', hexec, hinv, hload, hcap3, hdef, hn1, hd1, hg1⟩ :=
    foldSetitem_build entries markovFreshTable (fun _ => none) hinv0 hnd
      (fun p _ => rfl) (by rw [hlen0]; decide) (by decide) rfl rfl rfl
  rw [extendMap_none] at hinv
  refine ⟨h', ?_, hinv, by omega, by rw [hdef]; rfl⟩
  show mkMarkov k text 0 = _
  rw [mkMarkov, if_pos rfl, hok, except_bind_ok, hexec, except_bind_ok]
  rfl

theorem foldDictSet_fresh (L : List (List Char × ℕ)) :
    ∀ d0, (∀ p ∈ L, ∀ q ∈ d0, q.1 ≠ p.1) → (L.map Prod.fst).Nodup →
    L.foldl (fun d e => dictSet d e.1 e.2) d0 = d0 ++ L := by
  induction L with
  | nil => intro d0 _ _; simp
  | cons p L' ih =>
    intro d0 hdisj hnd
    obtain ⟨k0, v0⟩ := p
    simp only [List.foldl_cons]
    have hany : d0.any (fun q => q.1 = (k0, v0).1) = false := by
      rw [List.any_eq_false]
      intro q hq
      simp only [decide_eq_true_eq]
      exact hdisj (k0, v0) (by simp) q hq
    rw [show dictSet d0 (k0, v0).1 (k0, v0).2
        = d0 ++ [((k0, v0).1, (k0, v0).2)] from by rw [dictSet, hany]; simp]
    simp only [List.map_cons, List.nodup_cons] at hnd
    have hdisj' : ∀ p' ∈ L', ∀ q ∈ d0 ++ [(k0, v0)], q.1 ≠ p'.1 := by
      intro p' hp' q hq
      rcases List.mem_append.1 hq with hq0 | hq1
      · exact hdisj p' (by simp [hp']) q hq0
      · have : q = (k0, v0) := by simpa using hq1
        subst this
        intro hc
        have hc2 : k0 = p'.1 := hc
        exact hnd.1 (by rw [hc2]; exact List.mem_map.2 ⟨p', hp', rfl⟩)
    rw [ih (d0 ++ [(k0, v0)]) hdisj' hnd.2]
    simp

theorem mkMarkov_dict (k : ℕ) (text : List Char) (entries : List (List Char × ℕ))
    (hok : genTableEntries k text = Except.ok entries) :
    mkMarkov k text 1 = Except.ok { k := k, alphabet_len := text.dedup.length, table := MTable.pydict entries } := by
  have hnd := entries_fst_nodup k text entries hok
  rw [mkMarkov, if_neg (by decide : ¬ (1 : ℕ) = 0), if_pos rfl, hok, except_bind_ok]
  rw [foldDictSet_fresh entries [] (by intro p _ q hq; cases hq) hnd]
  rfl

theorem accessValues_ht (ht : Hashtable ℕ) (m : List Char → Option ℕ)
    (inv : TInv ht m) (hspare : ht.len < ht.capacity) (hdef : ht.defVal = 0)
    (s : List Char) :
    accessValues (MTable.hashtable ht) s = Except.ok ((m s).getD 0) := by
  show Hashtable.getitem ht s = _
  rw [getitem_tinv ht m s inv hspare, hdef]

theorem accessValues_dict (d : List (List Char × ℕ)) (s : List Char) :
    accessValues (MTable.pydict d) s = Except.ok ((alookup d s).getD 0) := rfl

theorem logProbability_congr (m1 m2 : Markov) (hk : m1.k = m2.k)
    (ha : m1.alphabet_len = m2.alphabet_len)
    (hacc : ∀ s, accessValues m1.table s = accessValues m2.table s)
    (text : List Char) : logProbability m1 text = logProbability m2 text := by
  unfold logProbability
  simp only [hk, ha, hacc]

theorem except_bind_error {ε β γ : Type} (e : ε) (f : β → Except ε γ) :
    (Except.error e : Except ε β) >>= f = Except.error e := rfl

theorem genPairs_empty (k : ℕ) : genPairs k [] = Except.error Fail.indexError := rfl

theorem genPairs_ok (k : ℕ) (text : List Char) (htext : text ≠ []) :
    ∃ pairs, genPairs k text = Except.ok pairs := by
  cases text with
  | nil => exact absurd rfl htext
  | cons c cs => exact ⟨_, rfl⟩

theorem genTableEntries_empty (k : ℕ) :
    genTableEntries k [] = Except.error Fail.indexError := by
  rw [genTableEntries, genPairs_empty]
  rfl

theorem genTableEntries_of_ne (k : ℕ) (text : List Char) (htext : text ≠ []) :
    ∃ entries, genTableEntries k text = Except.ok entries := by
  obtain ⟨pairs, hp⟩ := genPairs_ok k text htext
  refine ⟨(npUnique (pairs.flatMap (fun p => [p.1, p.2]))).map
    (fun s => (s, (pairs.flatMap (fun p => [p.1, p.2])).count s)), ?_⟩
  rw [genTableEntries, hp, except_bind_ok]
  rfl

/-- Construction succeeds exactly for a valid backend selector and a
non-empty training text (internal form of the amended C9). -/
theorem mkMarkov_ok_iff (k : ℕ) (text : List Char) (state : ℕ) :
    (∃ m, mkMarkov k text state = Except.ok m)
      ↔ ((state = 0 ∨ state = 1) ∧ text ≠ []) := by
  constructor
  · rintro ⟨m, hm⟩
    by_cases hs0 : state = 0
    · subst hs0
      refine ⟨Or.inl rfl, ?_⟩
      intro hte
      subst hte
      rw [mkMarkov, if_pos rfl, genTableEntries_empty, except_bind_error] at hm
      cases hm
    · by_cases hs1 : state = 1
      · subst hs1
        refine ⟨Or.inr rfl, ?_⟩
        intro hte
        subst hte
        rw [mkMarkov, if_neg (by decide), if_pos rfl, genTableEntries_empty,
          except_bind_error] at hm
        cases hm
      · rw [mkMarkov, if_neg hs0, if_neg hs1] at hm
        cases hm
  · rintro ⟨hs, htext⟩
    obtain ⟨entries, hent⟩ := genTableEntries_of_ne k text htext
    rcases hs with hs | hs
    · subst hs
      obtain ⟨ht, hmk, -, -, -⟩ := mkMarkov_ht k text entries hent
      exact ⟨_, hmk⟩
    · subst hs
      exact ⟨_, mkMarkov_dict k text entries hent⟩

theorem foldlM_log_ok (m : Markov) (pairs : List (List Char × List Char))
    (hacc : ∀ s, ∃ n, accessValues m.table s = Except.ok n) :
    ∀ acc : ℝ, ∃ r, pairs.foldlM (fun acc p => do
      let n1 ← accessValues m.table p.2
      let n0 ← accessValues m.table p.1
      pure (acc + Real.log (((n1 : ℝ) + 1) / ((n0 : ℝ) + (m.alphabet_len : ℝ)))))
      acc = Except.ok r := by
  induction pairs with
  | nil => intro acc; exact ⟨acc, rfl⟩
  | cons p ps ih =>
    intro acc
    obtain ⟨n1, h1⟩ := hacc p.2
    obtain ⟨n0, h0⟩ := hacc p.1
    obtain ⟨r, hr⟩ := ih (acc + Real.log (((n1 : ℝ) + 1) / ((n0 : ℝ) + (m.alphabet_len : ℝ))))
    refine ⟨r, ?_⟩
    rw [List.foldlM_cons, h1, except_bind_ok, h0, except_bind_ok]
    exact hr

theorem logProbability_ok (m : Markov) (text : List Char) (htext : text ≠ [])
    (hacc : ∀ s, ∃ n, accessValues m.table s = Except.ok n) :
    ∃ r, logProbability m text = Except.ok r := by
  obtain ⟨pairs, hp⟩ := genPairs_ok m.k text htext
  obtain ⟨r, hr⟩ := foldlM_log_ok m pairs hacc 0
  refine ⟨r, ?_⟩
  rw [logProbability, hp, except_bind_ok]
  exact hr

/-! ## Length bookkeeping for arbitrary states (used by the load-factor
claims) -/

namespace Hashtable

variable {α : Type}

theorem len_set_le (h : Hashtable α) (i : ℕ) (a : Slot α) :
    ({ h with table := h.table.set i a } : Hashtable α).len ≤ h.len + 1 := by
  by_cases hi : i < h.table.length
  · have hc := countP_set_eq (isLive (α := α)) h.table i a hi
    rw [len_eq_countP, len_eq_countP]
    show (h.table.set i a).countP isLive ≤ h.table.countP isLive + 1
    by_cases hpa : isLive a = true
    · rw [if_pos hpa] at hc
      omega
    · rw [if_neg hpa] at hc
      omega
  · have hset : h.table.set i a = h.table := List.set_eq_of_length_le (by omega)
    rw [len_eq_countP, len_eq_countP]
    show (h.table.set i a).countP isLive ≤ h.table.countP isLive + 1
    rw [hset]
    omega

theorem len_set_notlive_le (h : Hashtable α) (i : ℕ) (a : Slot α)
    (ha : isLive a = false) :
    ({ h with table := h.table.set i a } : Hashtable α).len ≤ h.len := by
  by_cases hi : i < h.table.length
  · have hc := countP_set_eq (isLive (α := α)) h.table i a hi
    rw [ha] at hc
    rw [len_eq_countP, len_eq_countP]
    show (h.table.set i a).countP isLive ≤ h.table.countP isLive
    simp only [Bool.false_eq_true, if_false] at hc
    omega
  · have hset : h.table.set i a = h.table := List.set_eq_of_length_le (by omega)
    rw [len_eq_countP, len_eq_countP]
    show (h.table.set i a).countP isLive ≤ h.table.countP isLive
    rw [hset]

theorem len_set_live_eq (h : Hashtable α) (i : ℕ) (a : Slot α)
    (hi : i < h.table.length) (ha : isLive a = true)
    (hold : isLive (h.table.get ⟨i, hi⟩) = true) :
    ({ h with table := h.table.set i a } : Hashtable α).len = h.len := by
  have hc := countP_set_eq (isLive (α := α)) h.table i a hi
  rw [ha, hold] at hc
  rw [len_eq_countP, len_eq_countP]
  show (h.table.set i a).countP isLive = h.table.countP isLive
  simp only [if_pos] at hc
  omega

theorem setitemLoop_len (h : Hashtable α) (key : List Char) (value : α) :
    ∀ (fuel : ℕ) (h0 : Hashtable α) (hv iter : ℕ) (r : Hashtable α),
    h0.capacity = h.capacity → h0.defVal = h.defVal →
    h0.loadfactorNum = h.loadfactorNum → h0.loadfactorDen = h.loadfactorDen →
    h0.growthFactor = h.growthFactor → h0.table.length = h.table.length →
    setitemLoop h0 key value hv iter fuel = some (Except.ok r) →
    r.len ≤ h0.len + 1 ∧ r.capacity = h.capacity ∧ r.defVal = h.defVal ∧
    r.loadfactorNum = h.loadfactorNum ∧ r.loadfactorDen = h.loadfactorDen ∧
    r.growthFactor = h.growthFactor ∧ r.table.length = h.table.length := by
  intro fuel
  induction fuel with
  | zero =>
    intro h0 hv iter r _ _ _ _ _ _ hr
    cases hr
  | succ fu ih =>
    intro h0 hv iter r hcap hdef hn hd hg hlen hr
    simp only [setitemLoop] at hr
    by_cases hit : h0.capacity ≤ iter
    · rw [if_pos hit] at hr
      injection hr with hr2
      cases hr2
    · rw [if_neg hit] at hr
      cases hslot : h0.slotAt (if h0.capacity ≤ hv then 0 else hv) with
      | empty =>
        simp only [hslot] at hr
        injection hr with hr2
        injection hr2 with hr3
        subst hr3
        refine ⟨len_set_le h0 _ _, by simpa using hcap, by simpa using hdef,
          by simpa using hn, by simpa using hd, by simpa using hg, ?_⟩
        show (h0.table.set _ _).length = h.table.length
        rw [List.length_set]
        exact hlen
      | occ k v live =>
        simp only [hslot] at hr
        by_cases hlv : live = false
        · rw [if_pos hlv] at hr
          injection hr with hr2
          injection hr2 with hr3
          subst hr3
          refine ⟨len_set_le h0 _ _, by simpa using hcap, by simpa using hdef,
            by simpa using hn, by simpa using hd, by simpa using hg, ?_⟩
          show (h0.table.set _ _).length = h.table.length
          rw [List.length_set]
          exact hlen
        · rw [if_neg hlv] at hr
          by_cases hkk : k = key
          · rw [if_pos hkk] at hr
            have hlive : live = true := by
              cases live
              · exact absurd rfl hlv
              · rfl
            have hin : (if h0.capacity ≤ hv then 0 else hv) < h0.table.length := by
              by_contra hc
              push_neg at hc
              have hdef2 : h0.slotAt (if h0.capacity ≤ hv then 0 else hv) = Slot.empty := by
                rw [Hashtable.slotAt, List.getD_eq_default]
                omega
              rw [hslot] at hdef2
              cases hdef2
            have hget : h0.table.get ⟨(if h0.capacity ≤ hv then 0 else hv), hin⟩
                = Slot.occ k v live := by
              rw [List.get_eq_getElem, ← slotAt_eq_getElem]
              exact hslot
            obtain ⟨hl1, hc1, hd1, hn1, hdd1, hg1, hlen1⟩ := ih _ _ _ _
              (by simpa using hcap) (by simpa using hdef) (by simpa using hn)
              (by simpa using hd) (by simpa using hg)
              (by rw [show ({ h0 with table := h0.table.set (if h0.capacity ≤ hv then 0 else hv) (Slot.occ key value true) } : Hashtable α).table.length = (h0.table.set (if h0.capacity ≤ hv then 0 else hv) (Slot.occ key value true)).length from rfl, List.length_set]; exact hlen) hr
            have heq := len_set_live_eq h0 (if h0.capacity ≤ hv then 0 else hv)
              (Slot.occ key value true) hin rfl (by rw [hget, hlive]; rfl)
            rw [heq] at hl1
            exact ⟨hl1, hc1, hd1, hn1, hdd1, hg1, hlen1⟩
          · rw [if_neg hkk] at hr
            exact ih h0 _ _ _ hcap hdef hn hd hg hlen hr

end Hashtable

namespace Hashtable

variable {α : Type}

theorem setitemCore_len (h : Hashtable α) (key : List Char) (value : α)
    (r : Hashtable α) (hr : setitemCore h key value = Except.ok r) :
    r.len ≤ h.len + 1 ∧ r.capacity = h.capacity ∧ r.defVal = h.defVal ∧
    r.loadfactorNum = h.loadfactorNum ∧ r.loadfactorDen = h.loadfactorDen ∧
    r.growthFactor = h.growthFactor ∧ r.table.length = h.table.length := by
  rw [setitemCore] at hr
  cases hslot : h.slotAt (hashKey h.capacity key) with
  | empty =>
    simp only [hslot] at hr
    injection hr with hr2
    subst hr2
    exact ⟨len_set_le h _ _, rfl, rfl, rfl, rfl, rfl, by
      show (h.table.set _ _).length = _
      rw [List.length_set]⟩
  | occ k v live =>
    simp only [hslot] at hr
    by_cases hcond : live = false ∨ k = key
    · rw [if_pos hcond] at hr
      injection hr with hr2
      subst hr2
      exact ⟨len_set_le h _ _, rfl, rfl, rfl, rfl, rfl, by
        show (h.table.set _ _).length = _
        rw [List.length_set]⟩
    · rw [if_neg hcond] at hr
      cases hloop : setitemLoop h key value (hashKey h.capacity key) 0 (h.capacity + 1) with
      | none =>
        rw [hloop] at hr
        have hr2 : (Except.error Fail.diverge : Except Fail (Hashtable α))
            = Except.ok r := hr
        cases hr2
      | some res =>
        rw [hloop] at hr
        have hr2 : res = Except.ok r := hr
        rw [hr2] at hloop
        exact setitemLoop_len h key value (h.capacity + 1) h _ _ r
          rfl rfl rfl rfl rfl rfl hloop

theorem foldCore_len (L : List (List Char × α)) :
    ∀ (h h' : Hashtable α),
    L.foldlM (fun acc kv => setitemCore acc kv.1 kv.2) h = Except.ok h' →
    h'.len ≤ h.len + L.length ∧ h'.capacity = h.capacity ∧ h'.defVal = h.defVal ∧
    h'.loadfactorNum = h.loadfactorNum ∧ h'.loadfactorDen = h.loadfactorDen ∧
    h'.growthFactor = h.growthFactor := by
  induction L with
  | nil =>
    intro h h' hr
    injection hr with hr2
    subst hr2
    exact ⟨by simp, rfl, rfl, rfl, rfl, rfl⟩
  | cons p ps ih =>
    intro h h' hr
    rw [List.foldlM_cons] at hr
    cases hc : setitemCore h p.1 p.2 with
    | error e =>
      rw [hc, except_bind_error] at hr
      cases hr
    | ok h1 =>
      rw [hc, except_bind_ok] at hr
      obtain ⟨hl1, hc1, hd1, hn1, hdd1, hg1, -⟩ := setitemCore_len h p.1 p.2 h1 hc
      obtain ⟨hl2, hc2, hd2, hn2, hdd2, hg2⟩ := ih h1 h' hr
      refine ⟨by simp only [List.length_cons]; omega, by rw [hc2, hc1],
        by rw [hd2, hd1], by rw [hn2, hn1], by rw [hdd2, hdd1], by rw [hg2, hg1]⟩

theorem rehash_len (h : Hashtable α) (h' : Hashtable α)
    (hr : rehash h = Except.ok h') :
    h'.len ≤ h.len ∧ h'.capacity = h.capacity * h.growthFactor ∧
    h'.defVal = h.defVal ∧ h'.loadfactorNum = h.loadfactorNum ∧
    h'.loadfactorDen = h.loadfactorDen ∧ h'.growthFactor = h.growthFactor := by
  rw [rehash] at hr
  obtain ⟨hl, hc, hd, hn, hdd, hg⟩ := foldCore_len _ _ _ hr
  have hfl : (h.table.filterMap (fun s => match s with
      | Slot.occ k v true => some (k, v)
      | _ => none)).length = h.len := by
    rw [filtered_length, ← len_eq_countP]
  have hfreshlen : ({ h with capacity := h.capacity * h.growthFactor, table := List.replicate (h.capacity * h.growthFactor) Slot.empty } : Hashtable α).len = 0 :=
    len_of_replicate _ rfl
  rw [hfreshlen, hfl] at hl
  exact ⟨by omega, by rw [hc], by rw [hd], by rw [hn], by rw [hdd], by rw [hg]⟩

theorem delitemLoop_len (h : Hashtable α) (key : List Char) :
    ∀ (fuel hv : ℕ) (r : Hashtable α),
    delitemLoop h key hv fuel = Except.ok r →
    r.len ≤ h.len ∧ r.capacity = h.capacity ∧ r.defVal = h.defVal ∧
    r.loadfactorNum = h.loadfactorNum ∧ r.loadfactorDen = h.loadfactorDen ∧
    r.growthFactor = h.growthFactor := by
  intro fuel
  induction fuel with
  | zero => intro hv r hr; cases hr
  | succ fu ih =>
    intro hv r hr
    simp only [delitemLoop] at hr
    cases hslot : h.slotAt (if h.capacity ≤ hv then 0 else hv) with
    | empty =>
      simp only [hslot] at hr
      cases hr
    | occ k v live =>
      simp only [hslot] at hr
      by_cases hcond : k = key ∧ live = true
      · rw [if_pos hcond] at hr
        injection hr with hr2
        subst hr2
        exact ⟨len_set_notlive_le h _ _ rfl, rfl, rfl, rfl, rfl, rfl⟩
      · rw [if_neg hcond] at hr
        exact ih _ r hr

theorem delitem_len (h : Hashtable α) (key : List Char) (r : Hashtable α)
    (hr : delitem h key = Except.ok r) :
    r.len ≤ h.len ∧ r.capacity = h.capacity ∧ r.defVal = h.defVal ∧
    r.loadfactorNum = h.loadfactorNum ∧ r.loadfactorDen = h.loadfactorDen ∧
    r.growthFactor = h.growthFactor := by
  rw [delitem] at hr
  cases hslot : h.slotAt (hashKey h.capacity key) with
  | empty =>
    simp only [hslot] at hr
    exact delitemLoop_len h key _ _ r hr
  | occ k v live =>
    cases live with
    | false =>
      simp only [hslot] at hr
      exact delitemLoop_len h key _ _ r hr
    | true =>
      simp only [hslot] at hr
      by_cases hk : k = key
      · rw [if_pos hk] at hr
        injection hr with hr2
        subst hr2
        exact ⟨len_set_notlive_le h _ _ rfl, rfl, rfl, rfl, rfl, rfl⟩
      · rw [if_neg hk] at hr
        exact delitemLoop_len h key _ _ r hr

theorem setitem_len (h : Hashtable α) (key : List Char) (value : α)
    (r : Hashtable α) (hr : setitem h key value = Except.ok r) :
    r.defVal = h.defVal ∧ r.loadfactorNum = h.loadfactorNum ∧
    r.loadfactorDen = h.loadfactorDen ∧ r.growthFactor = h.growthFactor ∧
    r.len ≤ h.len + 1 ∧
    (h.loadfactorNum * h.capacity ≤ h.loadfactorDen * h.len
      → r.capacity = h.capacity * h.growthFactor) ∧
    (¬ h.loadfactorNum * h.capacity ≤ h.loadfactorDen * h.len
      → r.capacity = h.capacity) := by
  rw [setitem] at hr
  by_cases htrig : h.loadfactorNum * h.capacity ≤ h.loadfactorDen * h.len
  · rw [if_pos htrig] at hr
    cases hre : rehash h with
    | error e =>
      rw [hre] at hr
      cases hr
    | ok h1 =>
      rw [hre] at hr
      obtain ⟨hl1, hc1, hd1, hn1, hdd1, hg1⟩ := rehash_len h h1 hre
      obtain ⟨hl2, hc2, hd2, hn2, hdd2, hg2, -⟩ := setitemCore_len h1 key value r hr
      exact ⟨by rw [hd2, hd1], by rw [hn2, hn1], by rw [hdd2, hdd1],
        by rw [hg2, hg1], by omega,
        fun _ => by rw [hc2, hc1], fun hc => absurd htrig hc⟩
  · rw [if_neg htrig] at hr
    obtain ⟨hl2, hc2, hd2, hn2, hdd2, hg2, -⟩ := setitemCore_len h key value r hr
    exact ⟨hd2, hn2, hdd2, hg2, hl2, fun hc => absurd hc htrig, fun _ => hc2⟩

end Hashtable

/-- States of a `Hashtable` reachable from a freshly constructed table by
successful `__setitem__` / `__delitem__` calls.  The side conditions on
`init` are those of the amended load claim: the load threshold is at
least one entry (`loadFactorThreshold * capacity ≥ 1`, in exact integer
form) and the growth factor is at least 2. -/
inductive Reach {α : Type} : Hashtable α → Prop where
  | init (cap : ℕ) (defV : α) (num den g : ℕ) (hden : 1 ≤ den)
      (hcap : den ≤ num * cap) (hg : 2 ≤ g) :
      Reach (mkHashtable α cap defV num den g)
  | set (h h' : Hashtable α) (key : List Char) (v : α) :
      Reach h → Hashtable.setitem h key v = Except.ok h' → Reach h'
  | del (h h' : Hashtable α) (key : List Char) :
      Reach h → Hashtable.delitem h key = Except.ok h' → Reach h'

/-- The load bookkeeping facts that hold in every reachable state. -/
theorem reach_invariant {α : Type} (h : Hashtable α) (hr : Reach h) :
    1 ≤ h.loadfactorDen ∧ h.loadfactorDen ≤ h.loadfactorNum * h.capacity ∧
    2 ≤ h.growthFactor ∧
    h.loadfactorDen * h.len < h.loadfactorNum * h.capacity + h.loadfactorDen := by
  induction hr with
  | init cap defV num den g hden hcap hg =>
    refine ⟨hden, hcap, hg, ?_⟩
    have hlen : (mkHashtable α cap defV num den g).len = 0 := len_of_replicate _ rfl
    rw [hlen]
    show den * 0 < num * cap + den
    omega
  | set h h' key v hreach hset ih =>
    obtain ⟨ihden, ihcap, ihg, ihload⟩ := ih
    obtain ⟨hdv, hnum, hden, hg, hlen, htrigcap, hnotrigcap⟩ :=
      Hashtable.setitem_len h key v h' hset
    rw [hnum, hden, hg]
    by_cases htrig : h.loadfactorNum * h.capacity ≤ h.loadfactorDen * h.len
    · have hcap' := htrigcap htrig
      rw [hcap']
      have hmul1 : h.loadfactorNum * (h.capacity * h.growthFactor)
          = h.loadfactorNum * h.capacity * h.growthFactor := by ring
      have hmul2 : h.loadfactorNum * h.capacity * 2
          ≤ h.loadfactorNum * h.capacity * h.growthFactor :=
        Nat.mul_le_mul_left _ ihg
      have hlen' : h.loadfactorDen * h'.len ≤ h.loadfactorDen * (h.len + 1) :=
        Nat.mul_le_mul_left _ hlen
      have hexp : h.loadfactorDen * (h.len + 1)
          = h.loadfactorDen * h.len + h.loadfactorDen := by ring
      refine ⟨ihden, ?_, ihg, ?_⟩
      · rw [hmul1]
        calc h.loadfactorDen ≤ h.loadfactorNum * h.capacity := ihcap
        _ ≤ h.loadfactorNum * h.capacity * h.growthFactor :=
          Nat.le_mul_of_pos_right _ (by omega)
      · rw [hmul1]
        omega
    · have hcap' := hnotrigcap htrig
      rw [hcap']
      have hlen' : h.loadfactorDen * h'.len ≤ h.loadfactorDen * (h.len + 1) :=
        Nat.mul_le_mul_left _ hlen
      have hexp : h.loadfactorDen * (h.len + 1)
          = h.loadfactorDen * h.len + h.loadfactorDen := by ring
      exact ⟨ihden, ihcap, ihg, by omega⟩
  | del h h' key hreach hdel ih =>
    obtain ⟨ihden, ihcap, ihg, ihload⟩ := ih
    obtain ⟨hlen, hcap, hdv, hnum, hden, hg⟩ := Hashtable.delitem_len h key h' hdel
    rw [hnum, hden, hg, hcap]
    have hlen' : h.loadfactorDen * h'.len ≤ h.loadfactorDen * h.len :=
      Nat.mul_le_mul_left _ hlen
    exact ⟨ihden, ihcap, ihg, by omega⟩

/-! ## Circular substrings (the specification side of `_gen_table`) -/

/-- The circular (wrap-around) substring of `t` of length `len` starting
at position `j` (for `j < t.length` and `len ≤ t.length + 1`, doubling
the text covers every wrap). -/
def circSub (t : List Char) (j len : ℕ) : List Char :=
  ((t ++ t).drop j).take len

/-- Number of starting positions (among the `t.length` circular
positions) at which `s` occurs as the circular substring of length
`len`. -/
def circOcc (t : List Char) (len : ℕ) (s : List Char) : ℕ :=
  ((List.range t.length).filter (fun j => circSub t j len = s)).length

theorem pySlice_nat (t : List Char) (a b : ℕ) (ha : a ≤ t.length)
    (hb : b ≤ t.length) :
    pySlice t (a : ℤ) (b : ℤ) = (t.take b).drop a := by
  rw [pySlice]
  have h1 : ¬ ((a : ℤ) < 0) := by omega
  have h2 : ¬ ((b : ℤ) < 0) := by omega
  rw [if_neg h1, if_neg h2]
  have h3 : min (a : ℤ) (t.length : ℤ) = (a : ℤ) := by omega
  have h4 : min (b : ℤ) (t.length : ℤ) = (b : ℤ) := by omega
  rw [h3, h4, Int.toNat_ofNat, Int.toNat_ofNat]

theorem pySlice_neg (t : List Char) (m : ℕ) (hm : m ≤ t.length) (hm0 : 0 < m) :
    pySlice t (-(m : ℤ)) (t.length : ℤ) = t.drop (t.length - m) := by
  rw [pySlice]
  have h1 : (-(m : ℤ) < 0) := by omega
  have h2 : ¬ ((t.length : ℤ) < 0) := by omega
  rw [if_pos h1, if_neg h2]
  have h3 : max ((t.length : ℤ) + -(m : ℤ)) 0 = ((t.length - m : ℕ) : ℤ) := by
    push_cast [Nat.cast_sub hm]
    omega
  have h4 : min (t.length : ℤ) (t.length : ℤ) = ((t.length : ℕ) : ℤ) := by omega
  rw [h3, h4, Int.toNat_ofNat, Int.toNat_ofNat, List.take_length]

theorem circSub_nowrap (t : List Char) (j len : ℕ) (hj : j + len ≤ t.length) :
    circSub t j len = (t.take (j + len)).drop j := by
  rw [circSub, List.drop_append_of_le_length (by omega), List.drop_take]
  have hlen2 : len ≤ (t.drop j).length := by
    rw [List.length_drop]; omega
  rw [List.take_append_of_le_length hlen2]
  congr 1
  omega

theorem circSub_wrap (t : List Char) (j len : ℕ) (hj : j ≤ t.length)
    (hlen : t.length ≤ j + len) :
    circSub t j len = t.drop j ++ t.take (len - (t.length - j)) := by
  rw [circSub, List.drop_append_of_le_length hj, List.take_append_eq_append_take]
  rw [List.take_of_length_le (by rw [List.length_drop]; omega)]
  congr 2
  rw [List.length_drop]

theorem range_filter_lt (n m : ℕ) :
    (List.range n).filter (fun i => decide (i < m)) = List.range (min m n) := by
  induction n with
  | zero => simp
  | succ n ih =>
    rw [show n + 1 = n.succ from rfl, List.range_succ, List.filter_append, ih]
    by_cases h : n < m
    · have h1 : List.filter (fun i => decide (i < m)) [n] = [n] := by simp [h]
      rw [h1, show min m n = n from by omega]
      have h2 : min m (n + 1) = n + 1 := by omega
      rw [h2, show n + 1 = n.succ from rfl, List.range_succ]
    · have h1 : List.filter (fun i => decide (i < m)) [n] = [] := by simp [h]
      rw [h1, List.append_nil]
      congr 1
      omega

theorem comp_piece (t : List Char) (k : ℕ) (hk : 1 ≤ k) (hkn : k ≤ t.length) :
    (((List.range t.length).filter (fun (i : ℕ) => (i : ℤ) + (k : ℤ) - 1 < (t.length : ℤ))).map
      (fun (i : ℕ) => (pySlice t ((i : ℤ) - 1) ((i : ℤ) + (k : ℤ) - 1),
                 pySlice t ((i : ℤ) - 1) ((i : ℤ) + (k : ℤ))))).drop 1
    = (List.range (t.length - k)).map
        (fun j => (circSub t j k, circSub t j (k + 1))) := by
  have hfilter : (List.range t.length).filter (fun (i : ℕ) => (i : ℤ) + (k : ℤ) - 1 < (t.length : ℤ))
      = List.range (t.length - k + 1) := by
    have hcongr : ∀ i ∈ List.range t.length,
        (decide ((i : ℤ) + k - 1 < t.length)) = decide (i < t.length - k + 1) := by
      intro i _
      apply decide_eq_decide.2
      omega
    rw [List.filter_congr hcongr, range_filter_lt]
    congr 1
    omega
  rw [hfilter, List.range_succ_eq_map, List.map_cons]
  rw [show ∀ (x : List Char × List Char) (xs : List (List Char × List Char)),
      (x :: xs).drop 1 = xs from fun x xs => rfl]
  rw [List.map_map]
  apply List.map_congr_left
  intro j hj
  rw [List.mem_range] at hj
  show (pySlice t (((j + 1 : ℕ) : ℤ) - 1) (((j + 1 : ℕ) : ℤ) + k - 1),
      pySlice t (((j + 1 : ℕ) : ℤ) - 1) (((j + 1 : ℕ) : ℤ) + k))
      = (circSub t j k, circSub t j (k + 1))
  have e1 : ((j + 1 : ℕ) : ℤ) - 1 = ((j : ℕ) : ℤ) := by push_cast; ring
  have e2 : ((j + 1 : ℕ) : ℤ) + k - 1 = ((j + k : ℕ) : ℤ) := by push_cast; ring
  have e3 : ((j + 1 : ℕ) : ℤ) + k = ((j + k + 1 : ℕ) : ℤ) := by push_cast; ring
  rw [e1, e2, e3, pySlice_nat t j (j + k) (by omega) (by omega),
    pySlice_nat t j (j + k + 1) (by omega) (by omega),
    circSub_nowrap t j k (by omega), circSub_nowrap t j (k + 1) (by omega),
    Nat.add_assoc]

theorem append_piece (c : Char) (cs : List Char) (k : ℕ) (hk : 1 ≤ k)
    (hkn : k ≤ (c :: cs).length) :
    (pySlice (c :: cs) (-(k : ℤ)) ((c :: cs).length : ℤ),
      pySlice (c :: cs) (-(k : ℤ)) ((c :: cs).length : ℤ) ++ [c])
    = (circSub (c :: cs) ((c :: cs).length - k) k,
       circSub (c :: cs) ((c :: cs).length - k) (k + 1)) := by
  have hps := pySlice_neg (c :: cs) k hkn (by omega)
  rw [hps]
  have h1 : circSub (c :: cs) ((c :: cs).length - k) k = (c :: cs).drop ((c :: cs).length - k) := by
    rw [circSub_nowrap _ _ _ (by omega), show (c :: cs).length - k + k = (c :: cs).length from by omega,
      List.take_length]
  have h2 : circSub (c :: cs) ((c :: cs).length - k) (k + 1)
      = (c :: cs).drop ((c :: cs).length - k) ++ [c] := by
    rw [circSub_wrap _ _ _ (by omega) (by omega)]
    congr 1
    rw [show k + 1 - ((c :: cs).length - ((c :: cs).length - k)) = 1 from by omega]
    rfl
  rw [h1, h2]

theorem tail_piece (c : Char) (cs : List Char) (k : ℕ) (hk2 : 2 ≤ k)
    (hkn : k ≤ (c :: cs).length) :
    (List.range (pySlice (c :: cs) (1 - (k : ℤ)) ((c :: cs).length : ℤ)).length).map
      (fun (ci : ℕ) =>
        (pySlice (c :: cs) (1 - (k : ℤ) + (ci : ℤ)) ((c :: cs).length : ℤ)
          ++ pySlice (c :: cs) 0 ((ci : ℤ) + 1),
         pySlice (c :: cs) (1 - (k : ℤ) + (ci : ℤ)) ((c :: cs).length : ℤ)
          ++ pySlice (c :: cs) 0 ((ci : ℤ) + 2)))
    = (List.range (k - 1)).map (fun ci =>
        (circSub (c :: cs) ((c :: cs).length - k + 1 + ci) k,
         circSub (c :: cs) ((c :: cs).length - k + 1 + ci) (k + 1))) := by
  have hstart : (1 : ℤ) - (k : ℤ) = -(((k - 1 : ℕ) : ℤ)) := by
    push_cast [Nat.cast_sub (by omega : 1 ≤ k)]
    ring
  have hlen : (pySlice (c :: cs) (1 - (k : ℤ)) ((c :: cs).length : ℤ)).length = k - 1 := by
    rw [hstart, pySlice_neg (c :: cs) (k - 1) (by omega) (by omega), List.length_drop]
    omega
  rw [hlen]
  apply List.map_congr_left
  intro ci hci
  rw [List.mem_range] at hci
  have hstart2 : (1 : ℤ) - (k : ℤ) + (ci : ℤ) = -(((k - 1 - ci : ℕ) : ℤ)) := by
    push_cast [Nat.cast_sub (by omega : ci ≤ k - 1), Nat.cast_sub (by omega : 1 ≤ k)]
    ring
  have hslice1 : pySlice (c :: cs) (1 - (k : ℤ) + ci) ((c :: cs).length : ℤ)
      = (c :: cs).drop ((c :: cs).length - k + 1 + ci) := by
    rw [hstart2, pySlice_neg (c :: cs) (k - 1 - ci) (by omega) (by omega)]
    congr 1
    omega
  have he1 : ((ci : ℤ) + 1) = ((ci + 1 : ℕ) : ℤ) := by push_cast; ring
  have he2 : ((ci : ℤ) + 2) = ((ci + 2 : ℕ) : ℤ) := by push_cast; ring
  have hslice2 : pySlice (c :: cs) 0 ((ci : ℤ) + 1) = (c :: cs).take (ci + 1) := by
    rw [he1, show (0 : ℤ) = ((0 : ℕ) : ℤ) from rfl,
      pySlice_nat (c :: cs) 0 (ci + 1) (by omega) (by omega), List.drop_zero]
  have hslice3 : pySlice (c :: cs) 0 ((ci : ℤ) + 2) = (c :: cs).take (ci + 2) := by
    rw [he2, show (0 : ℤ) = ((0 : ℕ) : ℤ) from rfl,
      pySlice_nat (c :: cs) 0 (ci + 2) (by omega) (by omega), List.drop_zero]
  have hc1 : circSub (c :: cs) ((c :: cs).length - k + 1 + ci) k
      = (c :: cs).drop ((c :: cs).length - k + 1 + ci) ++ (c :: cs).take (ci + 1) := by
    rw [circSub_wrap _ _ _ (by omega) (by omega)]
    congr 2
    omega
  have hc2 : circSub (c :: cs) ((c :: cs).length - k + 1 + ci) (k + 1)
      = (c :: cs).drop ((c :: cs).length - k + 1 + ci) ++ (c :: cs).take (ci + 2) := by
    rw [circSub_wrap _ _ _ (by omega) (by omega)]
    congr 2
    omega
  rw [hslice1, hslice2, hslice3, hc1, hc2]

theorem genPairs_circ (k : ℕ) (t : List Char) (hk : 1 ≤ k) (hkn : k ≤ t.length) :
    genPairs k t = Except.ok ((List.range t.length).map
      (fun j => (circSub t j k, circSub t j (k + 1)))) := by
  cases t with
  | nil =>
    rw [List.length_nil] at hkn
    omega
  | cons c cs =>
    have hsplit : List.range (c :: cs).length
        = List.range ((c :: cs).length - k + 1)
          ++ (List.range (k - 1)).map (((c :: cs).length - k + 1) + ·) := by
      rw [← List.range_add]
      congr 1
      have := hkn
      simp only [List.length_cons] at *
      omega
    rw [genPairs]
    rw [comp_piece (c :: cs) k hk hkn]
    conv_rhs => rw [hsplit, List.map_append, List.map_map,
      show (c :: cs).length - k + 1 = ((c :: cs).length - k) + 1 from rfl,
      List.range_succ, List.map_append]
    congr 1
    rw [append_piece c cs k hk hkn]
    congr 1
    by_cases hk2 : 1 < k
    · rw [if_pos hk2]
      rw [tail_piece c cs k (by omega) hkn]
      apply List.map_congr_left
      intro ci _
      rfl
    · rw [if_neg hk2]
      have hk1 : k = 1 := by omega
      subst hk1
      rfl

theorem count_flat_pairs (l : List ℕ) (f g : ℕ → List Char) (s : List Char) :
    ((l.map (fun j => (f j, g j))).flatMap (fun p => [p.1, p.2])).count s
      = (l.filter (fun j => f j = s)).length + (l.filter (fun j => g j = s)).length := by
  induction l with
  | nil => rfl
  | cons j js ih =>
    rw [List.map_cons, List.flatMap_cons, List.count_append, ih,
      List.filter_cons, List.filter_cons]
    by_cases hf : f j = s <;> by_cases hg : g j = s <;>
      simp [hf, hg, List.count_cons] <;> omega

theorem keys_eq_filtered {α : Type} (h : Hashtable α) :
    h.keys = (h.table.filterMap (fun s => match s with
      | Slot.occ k v true => some (k, v)
      | _ => none)).map Prod.fst := by
  rw [List.map_filterMap, Hashtable.keys]
  congr 1
  funext s
  cases s with
  | empty => rfl
  | occ k v live => cases live <;> rfl

theorem keys_nodup_tinv {α : Type} (h : Hashtable α) (m : List Char → Option α)
    (inv : TInv h m) : h.keys.Nodup := by
  rw [keys_eq_filtered]
  apply nodup_of_countP_le_one
  intro s
  exact le_trans (filtered_key_count h.table s) (inv.keycount s)

theorem keys_mem_tinv {α : Type} (h : Hashtable α) (m : List Char → Option α)
    (inv : TInv h m) (s : List Char) :
    s ∈ h.keys ↔ ∃ v, m s = some v := by
  rw [Hashtable.keys, List.mem_filterMap]
  constructor
  · rintro ⟨slot, hmem, hs⟩
    cases slot with
    | empty => cases hs
    | occ k2 v2 l2 =>
      cases l2 with
      | false => cases hs
      | true =>
        injection hs with he
        subst he
        exact ⟨v2, inv.sound k2 v2 true hmem⟩
  · rintro ⟨v, hv⟩
    obtain ⟨t, htcap, hsl, -⟩ := inv.complete s v hv
    refine ⟨Slot.occ s v true, ?_, rfl⟩
    rw [← hsl]
    exact h.slotAt_mem _ (by rw [inv.wf]; exact Nat.mod_lt _ inv.cap_pos)

theorem alookup_entries_count (k : ℕ) (text : List Char)
    (entries : List (List Char × ℕ))
    (hok : genTableEntries k text = Except.ok entries)
    (pairs : List (List Char × List Char))
    (hp : genPairs k text = Except.ok pairs) (s : List Char) :
    (alookup entries s).getD 0 = (pairs.flatMap (fun p => [p.1, p.2])).count s := by
  obtain ⟨pairs2, hp2, halo⟩ := entries_alookup k text entries hok s
  rw [hp] at hp2
  injection hp2 with he
  subst he
  rw [halo]
  by_cases hmem : s ∈ pairs.flatMap (fun p => [p.1, p.2])
  · rw [if_pos hmem]
    rfl
  · rw [if_neg hmem]
    rw [List.count_eq_zero.2 hmem]
    rfl

namespace Hashtable

variable {α : Type}

/-- The probing loop of `__setitem__` always decides within `capacity`
iterations: fuel `capacity + 1 - iter` never runs out. -/
theorem setitemLoop_total (h : Hashtable α) (key : List Char) (value : α) :
    ∀ (fuel : ℕ) (h0 : Hashtable α) (hv iter : ℕ), h0.capacity = h.capacity →
    iter ≤ h0.capacity → h0.capacity + 1 - iter ≤ fuel →
    (setitemLoop h0 key value hv iter fuel).isSome = true := by
  intro fuel
  induction fuel with
  | zero =>
    intro h0 hv iter hc hi hf
    omega
  | succ fu ih =>
    intro h0 hv iter hc hi hf
    rw [setitemLoop]
    by_cases hit : h0.capacity ≤ iter
    · rw [if_pos hit]
      rfl
    · rw [if_neg hit]
      cases hslot : h0.slotAt (if h0.capacity ≤ hv then 0 else hv) with
      | empty => simp only [hslot]; rfl
      | occ k v live =>
        simp only [hslot]
        by_cases hlv : live = false
        · rw [if_pos hlv]
          rfl
        · rw [if_neg hlv]
          by_cases hkk : k = key
          · rw [if_pos hkk]
            exact ih _ _ _ (by simpa using hc)
              (by show iter + 1 ≤ h0.capacity; omega)
              (by show h0.capacity + 1 - (iter + 1) ≤ fu; omega)
          · rw [if_neg hkk]
            exact ih _ _ _ hc (by omega) (by omega)

theorem setitemLoop_error (h : Hashtable α) (key : List Char) (value : α) :
    ∀ (fuel : ℕ) (h0 : Hashtable α) (hv iter : ℕ) (e : Fail),
    setitemLoop h0 key value hv iter fuel = some (Except.error e) →
    e = Fail.runTimeError := by
  intro fuel
  induction fuel with
  | zero => intro h0 hv iter e hr; cases hr
  | succ fu ih =>
    intro h0 hv iter e hr
    simp only [setitemLoop] at hr
    by_cases hit : h0.capacity ≤ iter
    · rw [if_pos hit] at hr
      injection hr with hr2
      injection hr2 with hr3
      exact hr3.symm
    · rw [if_neg hit] at hr
      cases hslot : h0.slotAt (if h0.capacity ≤ hv then 0 else hv) with
      | empty =>
        simp only [hslot] at hr
        injection hr with hr2
        cases hr2
      | occ k v live =>
        simp only [hslot] at hr
        by_cases hlv : live = false
        · rw [if_pos hlv] at hr
          injection hr with hr2
          cases hr2
        · rw [if_neg hlv] at hr
          by_cases hkk : k = key
          · rw [if_pos hkk] at hr
            exact ih _ _ _ e hr
          · rw [if_neg hkk] at hr
            exact ih _ _ _ e hr

theorem setitemLoop_placed (h : Hashtable α) (key : List Char) (value : α) :
    ∀ (fuel : ℕ) (h0 : Hashtable α) (hv iter : ℕ) (r : Hashtable α),
    h0.capacity = h.capacity → h0.table.length = h0.capacity →
    setitemLoop h0 key value hv iter fuel = some (Except.ok r) →
    ∃ i < h.capacity, r.slotAt i = Slot.occ key value true := by
  intro fuel
  induction fuel with
  | zero => intro h0 hv iter r _ _ hr; cases hr
  | succ fu ih =>
    intro h0 hv iter r hc hw hr
    simp only [setitemLoop] at hr
    by_cases hit : h0.capacity ≤ iter
    · rw [if_pos hit] at hr
      injection hr with hr2
      cases hr2
    · rw [if_neg hit] at hr
      have hcpos : 0 < h0.capacity := by omega
      have hnorm : (if h0.capacity ≤ hv then 0 else hv) < h0.capacity := by
        by_cases hcv : h0.capacity ≤ hv
        · rw [if_pos hcv]; omega
        · rw [if_neg hcv]; omega
      cases hslot : h0.slotAt (if h0.capacity ≤ hv then 0 else hv) with
      | empty =>
        simp only [hslot] at hr
        injection hr with hr2
        injection hr2 with hr3
        subst hr3
        refine ⟨(if h0.capacity ≤ hv then 0 else hv), by omega, ?_⟩
        exact slotAt_set_self h0 _ _ (by omega)
      | occ k v live =>
        simp only [hslot] at hr
        by_cases hlv : live = false
        · rw [if_pos hlv] at hr
          injection hr with hr2
          injection hr2 with hr3
          subst hr3
          refine ⟨(if h0.capacity ≤ hv then 0 else hv), by omega, ?_⟩
          exact slotAt_set_self h0 _ _ (by omega)
        · rw [if_neg hlv] at hr
          by_cases hkk : k = key
          · rw [if_pos hkk] at hr
            exact ih _ _ _ r (by simpa using hc)
              (by
                show (h0.table.set _ _).length = _
                rw [List.length_set]
                exact hw) hr
          · rw [if_neg hkk] at hr
            exact ih _ _ _ r hc hw hr

theorem setitemCore_cases (h : Hashtable α) (key : List Char) (value : α)
    (hw : h.table.length = h.capacity) (hpos : 0 < h.capacity) :
    (∃ r, setitemCore h key value = Except.ok r ∧
      ∃ i < h.capacity, r.slotAt i = Slot.occ key value true) ∨
    setitemCore h key value = Except.error Fail.runTimeError := by
  rw [setitemCore]
  have hhlt : hashKey h.capacity key < h.capacity := hashKey_lt _ _ hpos
  cases hslot : h.slotAt (hashKey h.capacity key) with
  | empty =>
    simp only [hslot]
    exact Or.inl ⟨_, rfl, hashKey h.capacity key, hhlt,
      slotAt_set_self h _ _ (by omega)⟩
  | occ k v live =>
    simp only [hslot]
    by_cases hcond : live = false ∨ k = key
    · rw [if_pos hcond]
      exact Or.inl ⟨_, rfl, hashKey h.capacity key, hhlt,
        slotAt_set_self h _ _ (by omega)⟩
    · rw [if_neg hcond]
      have htot := setitemLoop_total h key value (h.capacity + 1) h
        (hashKey h.capacity key) 0 rfl (by omega) (by omega)
      cases hloop : setitemLoop h key value (hashKey h.capacity key) 0 (h.capacity + 1) with
      | none => rw [hloop] at htot; cases htot
      | some res =>
        cases res with
        | error e =>
          have := setitemLoop_error h key value (h.capacity + 1) h _ _ e hloop
          subst this
          exact Or.inr rfl
        | ok r =>
          exact Or.inl ⟨r, rfl, setitemLoop_placed h key value (h.capacity + 1)
            h _ _ r rfl hw hloop⟩

theorem setitemCore_error (h : Hashtable α) (key : List Char) (value : α)
    (e : Fail) (hr : setitemCore h key value = Except.error e)
    (hw : h.table.length = h.capacity) (hpos : 0 < h.capacity) :
    e = Fail.runTimeError := by
  rcases setitemCore_cases h key value hw hpos with ⟨r, hok, -⟩ | herr
  · rw [hok] at hr; cases hr
  · rw [herr] at hr
    injection hr with he
    exact he.symm

theorem setitemCore_length (h : Hashtable α) (key : List Char) (value : α)
    (r : Hashtable α) (hr : setitemCore h key value = Except.ok r) :
    r.table.length = h.table.length :=
  (setitemCore_len h key value r hr).2.2.2.2.2.2

theorem foldCore_wf (L : List (List Char × α)) :
    ∀ (h h' : Hashtable α),
    L.foldlM (fun acc kv => setitemCore acc kv.1 kv.2) h = Except.ok h' →
    h'.table.length = h.table.length := by
  induction L with
  | nil =>
    intro h h' hr
    injection hr with hr2
    rw [hr2]
  | cons p ps ih =>
    intro h h' hr
    rw [List.foldlM_cons] at hr
    cases hc : setitemCore h p.1 p.2 with
    | error e =>
      rw [hc, except_bind_error] at hr
      cases hr
    | ok h1 =>
      rw [hc, except_bind_ok] at hr
      rw [ih h1 h' hr, setitemCore_length h p.1 p.2 h1 hc]

end Hashtable

namespace Hashtable

variable {α : Type}

theorem foldCore_error (L : List (List Char × α)) :
    ∀ (h : Hashtable α) (e : Fail), h.table.length = h.capacity → 0 < h.capacity →
    L.foldlM (fun acc kv => setitemCore acc kv.1 kv.2) h = Except.error e →
    e = Fail.runTimeError := by
  induction L with
  | nil => intro h e _ _ hr; cases hr
  | cons p ps ih =>
    intro h e hw hpos hr
    rw [List.foldlM_cons] at hr
    cases hc : setitemCore h p.1 p.2 with
    | error e2 =>
      rw [hc, except_bind_error] at hr
      injection hr with he
      rw [← he]
      exact setitemCore_error h p.1 p.2 e2 hc hw hpos
    | ok h1 =>
      rw [hc, except_bind_ok] at hr
      obtain ⟨-, hcap, -, -, -, -, hlen⟩ := setitemCore_len h p.1 p.2 h1 hc
      exact ih h1 e (by rw [hlen, hcap, hw]) (by omega) hr

theorem rehash_error (h : Hashtable α) (e : Fail)
    (hpos : 0 < h.capacity) (hgpos : 0 < h.growthFactor)
    (hr : rehash h = Except.error e) : e = Fail.runTimeError := by
  rw [rehash] at hr
  exact foldCore_error _ _ e (by
      show (List.replicate (h.capacity * h.growthFactor) (Slot.empty : Slot α)).length = _
      rw [List.length_replicate])
    (Nat.mul_pos hpos hgpos) hr

theorem setitem_cases (h : Hashtable α) (key : List Char) (value : α)
    (hw : h.table.length = h.capacity) (hpos : 0 < h.capacity)
    (hgpos : 0 < h.growthFactor) :
    (∃ r, setitem h key value = Except.ok r ∧
      ∃ i < r.capacity, r.slotAt i = Slot.occ key value true) ∨
    setitem h key value = Except.error Fail.runTimeError := by
  rw [setitem]
  by_cases htrig : h.loadfactorNum * h.capacity ≤ h.loadfactorDen * h.len
  · rw [if_pos htrig]
    cases hre : rehash h with
    | error e =>
      have := rehash_error h e hpos hgpos hre
      subst this
      exact Or.inr rfl
    | ok h1 =>
      have hw1 : h1.table.length = h1.capacity := by
        rw [rehash] at hre
        have hl := foldCore_wf _ _ _ hre
        obtain ⟨-, hcap, -, -, -, -⟩ := foldCore_len _ _ _ hre
        rw [hl, hcap]
        show (List.replicate (h.capacity * h.growthFactor) (Slot.empty : Slot α)).length = _
        rw [List.length_replicate]
      have hpos1 : 0 < h1.capacity := by
        obtain ⟨-, hcap, -, -, -, -⟩ := rehash_len h h1 hre
        rw [hcap]
        exact Nat.mul_pos hpos hgpos
      rcases setitemCore_cases h1 key value hw1 hpos1 with ⟨r, hok, i, hi, hsl⟩ | herr
      · obtain ⟨-, hcap2, -, -, -, -, -⟩ := setitemCore_len h1 key value r hok
        exact Or.inl ⟨r, hok, i, by omega, hsl⟩
      · exact Or.inr herr
  · rw [if_neg htrig]
    rcases setitemCore_cases h key value hw hpos with ⟨r, hok, i, hi, hsl⟩ | herr
    · obtain ⟨-, hcap2, -, -, -, -, -⟩ := setitemCore_len h key value r hok
      exact Or.inl ⟨r, hok, i, by omega, hsl⟩
    · exact Or.inr herr

end Hashtable

/-- The key list of the frequency-table backend (`Hashtable.keys`, or the
keys of the `dict`). -/
def keysOf : MTable → List (List Char)
  | MTable.hashtable h => h.keys
  | MTable.pydict d => d.map Prod.fst

/-! ## Concrete traces exercising the hash table

Small tables with the load factor 1/2 and growth factor 2 of the
assignment.  With capacity 3, the keys "a" (`ord 'a' = 97`, `97 % 3 = 1`)
and "d" (`100 % 3 = 1`) hash to the same slot; with capacity 2, "a"
(`97 % 2 = 1`) and "b" (`98 % 2 = 0`) fill both slots and "c"
(`99 % 2 = 1`) collides with "a". -/

def ex3 : Hashtable ℕ := mkHashtable ℕ 3 0 1 2 2

def ex2 : Hashtable ℕ := mkHashtable ℕ 2 0 1 2 2

/-- set "a" ↦ 10; set "d" ↦ 1 (probes past "a" into slot 2);
delete "a"; set "d" ↦ 2.  The last call finds the tombstoned "a" in
slot 1 and overwrites it with `("d", 2, True)` without noticing the
live `("d", 1, True)` one slot further along the probe chain, so the
resulting table holds two live entries for "d". -/
def dupTrace : Except Fail (Hashtable ℕ) := do
  let h1 ← Hashtable.setitem ex3 ['a'] 10
  let h2 ← Hashtable.setitem h1 ['d'] 1
  let h3 ← Hashtable.delitem h2 ['a']
  Hashtable.setitem h3 ['d'] 2

/-- `dupTrace` followed by set "e" ↦ 5, which pushes the size to the
load threshold and forces a growth pass; the rehash re-inserts the two
live "d" entries in slot order, so the stale value 1 is written last. -/
def staleTrace : Except Fail (Hashtable ℕ) := do
  let h ← dupTrace
  Hashtable.setitem h ['e'] 5

/-- `dupTrace` followed by delete "d": the delete tombstones only the
first of the two live "d" entries. -/
def tombTrace : Except Fail (Hashtable ℕ) := do
  let h ← dupTrace
  Hashtable.delitem h ['d']

/-- On the capacity-2 table: set "a" ↦ 1; delete "a"; set "b" ↦ 2;
delete "b".  Both slots end as tombstones and no live entry remains. -/
def allTombTrace : Except Fail (Hashtable ℕ) := do
  let h1 ← Hashtable.setitem ex2 ['a'] 1
  let h2 ← Hashtable.delitem h1 ['a']
  let h3 ← Hashtable.setitem h2 ['b'] 2
  Hashtable.delitem h3 ['b']

/-! ## The claims -/

/-- C1: REFUTED by a concrete trace.  The claim says `get(key)` returns
the last value passed to `set(key, v)` until a `delete(key)` intervenes.
In `staleTrace` the last write to "d" is `set("d", 2)` and no delete of
"d" follows it, yet `get("d")` returns the stale value 1: the duplicate
live entries left by `__setitem__` (see C5) are re-inserted by the
growth pass in slot order, and the second re-insertion overwrites the
fresh value 2 with the stale value 1. -/
theorem claim_C1 :
    staleTrace.bind (fun h => Hashtable.getitem h ['d']) = Except.ok 1 := by
  decide

/-- C2: REFUTED by a concrete trace.  The claim says that immediately
after `delete(key)` succeeds, `get(key)` returns the default value and
`contains(key)` is false.  In `tombTrace` the delete of "d" succeeds
(it tombstones the first live "d" entry), yet `get("d")` still returns
1 (not the default 0) from the second live "d" entry and
`contains("d")` is still true. -/
theorem claim_C2 :
    tombTrace.map (fun h => (Hashtable.getitem h ['d'], h.containsKey ['d']))
      = Except.ok (Except.ok 1, true) := by
  decide

/-- C5: REFUTED by a concrete trace.  The claim says each key occupies
at most one live slot, so `size()` counts each present key once and
`keys()` has no duplicates.  After `dupTrace` the key "d" occupies two
live slots: `keys()` is `["d", "d"]` and `size()` is 2, because the
tombstone branch of `__setitem__` overwrites a tombstone without first
scanning the rest of the probe chain for the key. -/
theorem claim_C5 :
    dupTrace.map (fun h => (h.keys, h.len))
      = Except.ok ([['d'], ['d']], 2) := by
  decide

/-- C7: REFUTED by a concrete trace.  The claim says `delete(key)`
signals a NotFound error whenever no live slot holds the key.  After
`allTombTrace` the table holds no live entry at all (`keys() = []`),
yet `delete("c")` does not raise KeyError: its probing loop only stops
at a slot equal to the default value, every slot is a tombstoned tuple,
and the loop never resets `hash_val` bounds-checking against
`iter_count`, so the call loops forever (modelled as `Fail.diverge`:
the scan state repeats after `capacity` iterations). -/
theorem claim_C7 :
    allTombTrace.map (fun h => (h.keys, Hashtable.delitem h ['c']))
      = Except.ok ([], Except.error Fail.diverge) := by
  decide

/-- C4, counterexample to the literal claim.  On the fresh capacity-2
table (`loadFactorThreshold = 1/2`), one `set` completes with
`size() = 1` while `loadFactorThreshold * capacity = 1`: the strict
bound `size() < loadFactorThreshold * capacity` does not hold after
the call, because `__setitem__` checks the load only on entry, before
its own insertion is counted. -/
theorem counterexample_C4 :
    (Hashtable.setitem ex2 ['a'] 1).map
        (fun h => (h.len, h.loadfactorNum, h.loadfactorDen, h.capacity))
      = Except.ok (1, 1, 2, 2) ∧ ¬ ((1 : ℚ) < 1 / 2 * 2) := by
  refine ⟨by decide, ?_⟩
  norm_num

/-- C4 (amended): in every state reachable from a fresh table whose
parameters satisfy `loadFactorThreshold * capacity ≥ 1` and
`growthFactor ≥ 2`, any completed `set` leaves
`size() < loadFactorThreshold * capacity + 1` (one more than the
claimed strict bound): the entry check guarantees the load was below
the threshold, or the growth pass restored that, before the one new
entry was added. -/
theorem claim_C4 {α : Type} (h h' : Hashtable α) (key : List Char) (v : α)
    (hr : Reach h) (hset : Hashtable.setitem h key v = Except.ok h') :
    (h'.len : ℚ)
      < (h'.loadfactorNum : ℚ) / (h'.loadfactorDen : ℚ) * (h'.capacity : ℚ) + 1 := by
  have hr' : Reach h' := Reach.set h h' key v hr hset
  obtain ⟨hden, -, -, hload⟩ := reach_invariant h' hr'
  have hdq : (0 : ℚ) < (h'.loadfactorDen : ℚ) := by exact_mod_cast hden
  have hne : (h'.loadfactorDen : ℚ) ≠ 0 := ne_of_gt hdq
  have hq : (h'.loadfactorDen : ℚ) * (h'.len : ℚ)
      < (h'.loadfactorNum : ℚ) * (h'.capacity : ℚ) + (h'.loadfactorDen : ℚ) := by
    exact_mod_cast hload
  have hgoal : (h'.len : ℚ)
      < ((h'.loadfactorNum : ℚ) * (h'.capacity : ℚ) + (h'.loadfactorDen : ℚ))
          / (h'.loadfactorDen : ℚ) := by
    rw [lt_div_iff₀ hdq]
    calc (h'.len : ℚ) * (h'.loadfactorDen : ℚ)
        = (h'.loadfactorDen : ℚ) * (h'.len : ℚ) := by ring
    _ < _ := hq
  calc (h'.len : ℚ) < _ := hgoal
  _ = (h'.loadfactorNum : ℚ) / (h'.loadfactorDen : ℚ) * (h'.capacity : ℚ) + 1 := by
    field_simp

/-- The table produced by `set "a" ↦ 1` on the fresh capacity-3 table. -/
def c4w : Hashtable ℕ :=
  { capacity := 3, defVal := 0, loadfactorNum := 1, loadfactorDen := 2,
    growthFactor := 2, table := [Slot.empty, Slot.occ ['a'] 1 true, Slot.empty] }

/-- The amended load bound, checked on one concrete `set`. -/
theorem claim_C4_witness :
    Hashtable.setitem ex3 ['a'] 1 = Except.ok c4w ∧
    (c4w.len : ℚ)
      < (c4w.loadfactorNum : ℚ) / (c4w.loadfactorDen : ℚ) * (c4w.capacity : ℚ) + 1 :=
  ⟨by decide, claim_C4 ex3 c4w ['a'] 1
    (Reach.init 3 0 1 2 2 (by omega) (by omega) (by omega)) (by decide)⟩

/-- C8: CONFIRMED.  For any well-formed table state, `set(key, value)`
is total and never fails silently: (i) the probing loop of
`__setitem__` always decides within `capacity` iterations (the fuel
`capacity + 1 - iter` never runs out, so the loop as modelled cannot
diverge), and (ii) the full call either returns a table in which some
slot holds `(key, value, True)` live, or signals the
invariant-violation error (`raise RunTimeError`) to the caller. -/
theorem claim_C8 {α : Type} (h : Hashtable α) (key : List Char) (value : α)
    (hw : h.table.length = h.capacity) (hpos : 0 < h.capacity)
    (hgpos : 0 < h.growthFactor) :
    (∀ hv iter fuel, iter ≤ h.capacity → h.capacity + 1 - iter ≤ fuel →
      (Hashtable.setitemLoop h key value hv iter fuel).isSome = true) ∧
    ((∃ r, Hashtable.setitem h key value = Except.ok r ∧
        ∃ i, i < r.capacity ∧ r.slotAt i = Slot.occ key value true) ∨
      Hashtable.setitem h key value = Except.error Fail.runTimeError) := by
  constructor
  · intro hv iter fuel h1 h2
    exact Hashtable.setitemLoop_total h key value fuel h hv iter rfl h1 h2
  · rcases Hashtable.setitem_cases h key value hw hpos hgpos with
      ⟨r, hok, i, hi, hsl⟩ | herr
    · exact Or.inl ⟨r, hok, i, hi, hsl⟩
    · exact Or.inr herr

/-- The probe bound and the place-or-signal dichotomy, checked on one
concrete table. -/
theorem claim_C8_witness :
    ex2.table.length = ex2.capacity ∧ 0 < ex2.capacity ∧ 0 < ex2.growthFactor ∧
    ((∀ hv iter fuel, iter ≤ ex2.capacity → ex2.capacity + 1 - iter ≤ fuel →
      (Hashtable.setitemLoop ex2 ['a'] 1 hv iter fuel).isSome = true) ∧
    ((∃ r, Hashtable.setitem ex2 ['a'] 1 = Except.ok r ∧
        ∃ i, i < r.capacity ∧ r.slotAt i = Slot.occ ['a'] 1 true) ∨
      Hashtable.setitem ex2 ['a'] 1 = Except.error Fail.runTimeError)) :=
  ⟨by decide, by decide, by decide,
    claim_C8 ex2 ['a'] 1 (by decide) (by decide) (by decide)⟩

/-- C6: CONFIRMED.  For any order `k ≥ 1`, non-empty training text and
any evaluation text, the model built on the custom `Hashtable`
backend (state 0) and the model built on the native `dict` backend
(state 1) give exactly the same `log_probability` value: both tables
realise the same key ↦ count map (the hash table returns its default
0 for a missing key, the dict's KeyError is caught and turned into 0),
and the scoring loop only reads the table through that map. -/
theorem claim_C6 (k : ℕ) (train text2 : List Char) (hk : 1 ≤ k)
    (htrain : train ≠ []) :
    (mkMarkov k train 0).bind (fun m => logProbability m text2)
      = (mkMarkov k train 1).bind (fun m => logProbability m text2) := by
  obtain ⟨entries, hent⟩ := genTableEntries_of_ne k train htrain
  obtain ⟨ht, hmk0, hinv, hspare, hdef⟩ := mkMarkov_ht k train entries hent
  have hmk1 := mkMarkov_dict k train entries hent
  rw [hmk0, hmk1]
  show logProbability
      { k := k, alphabet_len := train.dedup.length, table := MTable.hashtable ht }
      text2
    = logProbability
      { k := k, alphabet_len := train.dedup.length, table := MTable.pydict entries }
      text2
  apply logProbability_congr
  · rfl
  · rfl
  · intro s
    rw [accessValues_ht ht (fun s => alookup entries s) hinv hspare hdef s,
      accessValues_dict entries s]

/-- Backend equivalence, checked at order 1 on the training text "a"
and the evaluation text "b". -/
theorem claim_C6_witness :
    1 ≤ 1 ∧ (['a'] : List Char) ≠ [] ∧
    (mkMarkov 1 ['a'] 0).bind (fun m => logProbability m ['b'])
      = (mkMarkov 1 ['a'] 1).bind (fun m => logProbability m ['b']) :=
  ⟨le_refl 1, by decide, claim_C6 1 ['a'] ['b'] (le_refl 1) (by decide)⟩

/-- C9, counterexample to the literal claim.  The claim says
construction never completes when the order is non-positive; with
order 0 (and valid backend 1, non-empty text "ab") construction
completes normally — `Markov.__init__` performs no validation of `k`
at all.  (The substring slices it builds for `k = 0` are simply
degenerate.) -/
theorem counterexample_C9 :
    (mkMarkov 0 ['a', 'b'] 1).map (fun m => m.k) = Except.ok 0 := by
  decide

/-- C9 (amended): construction completes exactly when the backend
selector is 0 or 1 and the training text is non-empty; an invalid
selector raises the bare `Exception` (not a ConfigurationError), and a
valid selector with empty text fails only incidentally, with the
`IndexError` from `text[0]` inside `_gen_table`.  Neither a
non-positive order nor a degenerate alphabet is rejected. -/
theorem claim_C9 (k : ℕ) (text : List Char) (state : ℕ) :
    ((∃ m, mkMarkov k text state = Except.ok m)
      ↔ ((state = 0 ∨ state = 1) ∧ text ≠ [])) ∧
    (¬ (state = 0 ∨ state = 1) →
      mkMarkov k text state = Except.error Fail.exception) ∧
    ((state = 0 ∨ state = 1) → text = [] →
      mkMarkov k text state = Except.error Fail.indexError) := by
  refine ⟨mkMarkov_ok_iff k text state, ?_, ?_⟩
  · intro hst
    rw [mkMarkov, if_neg (fun hc => hst (Or.inl hc)),
      if_neg (fun hc => hst (Or.inr hc))]
  · rintro (hs | hs) hte <;> subst hs <;> subst hte
    · rw [mkMarkov, if_pos rfl, genTableEntries_empty]
      rfl
    · rw [mkMarkov, if_neg (by decide), if_pos rfl, genTableEntries_empty]
      rfl

/-- C10, counterexample to the literal claim.  The claim promises a
"B" verdict for every unknown text whenever the two corpora are
identical; with the empty unknown text the call never reaches the
comparison: `log_probability` evaluates `text[0]` on the empty string
and the IndexError propagates out of `identify_speaker`. -/
theorem counterexample_C10 :
    identifySpeaker ['a'] ['a'] [] 1 1 = Except.error Fail.indexError := by
  rfl

/-- C10 (amended): for every order, valid backend, identical corpora
(non-empty) and non-empty unknown text, `identify_speaker` completes
and returns equal scores with the verdict "B": the two models are
built by the same deterministic construction, so both normalized
log-likelihoods are the same real number `s`, the strict comparison
fails, and the `else` branch ("B") is taken. -/
theorem claim_C10 (corpus unknown : List Char) (k state : ℕ) (hk : 1 ≤ k)
    (hst : state = 0 ∨ state = 1) (hc : corpus ≠ []) (hu : unknown ≠ []) :
    ∃ s : ℝ, identifySpeaker corpus corpus unknown k state
      = Except.ok (s, s, "B") := by
  obtain ⟨entries, hent⟩ := genTableEntries_of_ne k corpus hc
  rcases hst with hs | hs
  · subst hs
    obtain ⟨ht, hmk, hinv, hspare, hdef⟩ := mkMarkov_ht k corpus entries hent
    have hacc : ∀ s, ∃ n, accessValues
        ({ k := k, alphabet_len := corpus.dedup.length,
           table := MTable.hashtable ht } : Markov).table s = Except.ok n :=
      fun s => ⟨_, accessValues_ht ht (fun t => alookup entries t) hinv hspare hdef s⟩
    obtain ⟨r, hlog⟩ := logProbability_ok
      { k := k, alphabet_len := corpus.dedup.length, table := MTable.hashtable ht }
      unknown hu hacc
    refine ⟨r / (unknown.length : ℝ), ?_⟩
    simp only [identifySpeaker, hmk, except_bind_ok, hlog]
    rw [if_neg (lt_irrefl (r / (unknown.length : ℝ)))]
    rfl
  · subst hs
    have hmk := mkMarkov_dict k corpus entries hent
    have hacc : ∀ s, ∃ n, accessValues
        ({ k := k, alphabet_len := corpus.dedup.length,
           table := MTable.pydict entries } : Markov).table s = Except.ok n :=
      fun s => ⟨_, accessValues_dict entries s⟩
    obtain ⟨r, hlog⟩ := logProbability_ok
      { k := k, alphabet_len := corpus.dedup.length, table := MTable.pydict entries }
      unknown hu hacc
    refine ⟨r / (unknown.length : ℝ), ?_⟩
    simp only [identifySpeaker, hmk, except_bind_ok, hlog]
    rw [if_neg (lt_irrefl (r / (unknown.length : ℝ)))]
    rfl

/-- The tie verdict, checked with corpus "a", unknown text "b", order 1
and the dict backend. -/
theorem claim_C10_witness :
    1 ≤ 1 ∧ ((1 : ℕ) = 0 ∨ (1 : ℕ) = 1) ∧ (['a'] : List Char) ≠ [] ∧
    (['b'] : List Char) ≠ [] ∧
    ∃ s : ℝ, identifySpeaker ['a'] ['a'] ['b'] 1 1 = Except.ok (s, s, "B") :=
  ⟨le_refl 1, Or.inr rfl, by decide, by decide,
    claim_C10 ['a'] ['b'] 1 1 (le_refl 1) (Or.inr rfl) (by decide) (by decide)⟩

/-- C3, counterexample to the literal claim with `k = 3` and the
training text "ab" (`k` larger than the text length).  The claim says
the table maps each circular substring of length `k` to the number of
starting positions at which it occurs: "aba" occurs at exactly one of
the 2 circular positions (`circOcc` counts it), yet the built table
maps "aba" ↦ 2; the table moreover contains the key "ab" of length 2,
which is neither a length-`k` nor a length-`k+1` substring.  The
Python slices stop wrapping after one turn, so for `k > len(text)` the
enumerated substrings are truncated and collide.  (On this input the
model coincides with the program: the text is NUL-free, so the
fixed-width `np.unique` keeps its distinct-length substrings
distinct.) -/
theorem counterexample_C3 :
    (mkMarkov 3 ['a', 'b'] 1).map
        (fun m => (accessValues m.table ['a', 'b', 'a'],
          (keysOf m.table).contains ['a', 'b']))
      = Except.ok (Except.ok 2, true) ∧
    circOcc ['a', 'b'] 3 ['a', 'b', 'a'] = 1 := by
  exact ⟨by decide, by decide⟩

/-- C3 (amended): the construction contract holds for `1 ≤ k ≤ n`
(`n` the training text length, so every wrap spans at most one turn)
and a NUL-free training text: for either backend, construction
succeeds and the resulting table maps every string `s` to
`circOcc t k s + circOcc t (k+1) s` — the number of the `n` circular
starting positions at which `s` occurs as the length-`k` substring
plus those at which it occurs as the length-`k+1` substring; the key
set is exactly the strings with a positive such count (so each present
key has length `k` or `k+1`, each counted over all `n` positions,
wrap-around included), the keys are duplicate-free, and `alphabet_len`
is the number of distinct characters of the text.  The NUL-freeness
hypothesis confines the claim to the domain on which the `np.unique`
model is exact (see `npUnique`): on a text containing NUL, the real
fixed-width `np.unique` merges a length-`k` substring with its
NUL-extended length-`k+1` extension (for the text "a\x00" with
`k = 1` the real table is `'a' ↦ 2` with keys stripped of trailing
NULs), so there the per-length counting contract itself is false of
the program. -/
theorem claim_C3 (k : ℕ) (t : List Char) (state : ℕ) (hk : 1 ≤ k)
    (hkn : k ≤ t.length) (hnul : Char.ofNat 0 ∉ t)
    (hst : state = 0 ∨ state = 1) :
    ∃ m, mkMarkov k t state = Except.ok m ∧
      m.alphabet_len = t.toFinset.card ∧
      (∀ s, accessValues m.table s
        = Except.ok (circOcc t k s + circOcc t (k + 1) s)) ∧
      (∀ s, s ∈ keysOf m.table ↔ 0 < circOcc t k s + circOcc t (k + 1) s) ∧
      (keysOf m.table).Nodup := by
  have ht0 : t ≠ [] := by
    intro he
    rw [he] at hkn
    simp only [List.length_nil] at hkn
    omega
  obtain ⟨entries, hent⟩ := genTableEntries_of_ne k t ht0
  have hpairs := genPairs_circ k t hk hkn
  have hcount : ∀ s, (((List.range t.length).map
      (fun j => (circSub t j k, circSub t j (k + 1)))).flatMap
        (fun p => [p.1, p.2])).count s
      = circOcc t k s + circOcc t (k + 1) s := by
    intro s
    exact count_flat_pairs (List.range t.length)
      (fun j => circSub t j k) (fun j => circSub t j (k + 1)) s
  have halo : ∀ s, (alookup entries s).getD 0
      = circOcc t k s + circOcc t (k + 1) s := by
    intro s
    rw [alookup_entries_count k t entries hent _ hpairs s]
    exact hcount s
  have hsome : ∀ s, (alookup entries s).isSome = true
      ↔ 0 < circOcc t k s + circOcc t (k + 1) s := by
    intro s
    obtain ⟨P2, hP2, halo2⟩ := entries_alookup k t entries hent s
    rw [hpairs] at hP2
    injection hP2 with hPe
    subst hPe
    rw [halo2]
    by_cases hmem : s ∈ ((List.range t.length).map
        (fun j => (circSub t j k, circSub t j (k + 1)))).flatMap
          (fun p => [p.1, p.2])
    · rw [if_pos hmem]
      have hpos : 0 < circOcc t k s + circOcc t (k + 1) s := by
        rw [← hcount s]
        exact List.count_pos_iff.2 hmem
      simp [hpos]
    · rw [if_neg hmem]
      have h0 : circOcc t k s + circOcc t (k + 1) s = 0 := by
        rw [← hcount s]
        exact List.count_eq_zero.2 hmem
      rw [h0]
      simp
  rcases hst with hs | hs
  · subst hs
    obtain ⟨hb, hmk, hinv, hspare, hdef⟩ := mkMarkov_ht k t entries hent
    refine ⟨_, hmk, ?_, ?_, ?_, ?_⟩
    · show t.dedup.length = t.toFinset.card
      exact (List.card_toFinset t).symm
    · intro s
      show accessValues (MTable.hashtable hb) s = _
      rw [accessValues_ht hb (fun u => alookup entries u) hinv hspare hdef s]
      show Except.ok ((alookup entries s).getD 0) = _
      rw [halo s]
    · intro s
      show s ∈ hb.keys ↔ _
      rw [keys_mem_tinv hb (fun u => alookup entries u) hinv s, ← hsome s]
      exact Option.isSome_iff_exists.symm
    · show hb.keys.Nodup
      exact keys_nodup_tinv hb (fun u => alookup entries u) hinv
  · subst hs
    have hmk := mkMarkov_dict k t entries hent
    refine ⟨_, hmk, ?_, ?_, ?_, ?_⟩
    · show t.dedup.length = t.toFinset.card
      exact (List.card_toFinset t).symm
    · intro s
      show accessValues (MTable.pydict entries) s = _
      rw [accessValues_dict entries s, halo s]
    · intro s
      show s ∈ entries.map Prod.fst ↔ _
      rw [← hsome s]
      exact (alookup_isSome_iff entries s).symm
    · show (entries.map Prod.fst).Nodup
      exact entries_fst_nodup k t entries hent

/-- The amended construction contract, checked at order 1 on the
(NUL-free) training text "a" with the dict backend. -/
theorem claim_C3_witness :
    1 ≤ 1 ∧ 1 ≤ (['a'] : List Char).length ∧ Char.ofNat 0 ∉ (['a'] : List Char) ∧
    ((1 : ℕ) = 0 ∨ (1 : ℕ) = 1) ∧
    ∃ m, mkMarkov 1 ['a'] 1 = Except.ok m ∧
      m.alphabet_len = (['a'] : List Char).toFinset.card ∧
      (∀ s, accessValues m.table s
        = Except.ok (circOcc ['a'] 1 s + circOcc ['a'] 2 s)) ∧
      (∀ s, s ∈ keysOf m.table ↔ 0 < circOcc ['a'] 1 s + circOcc ['a'] 2 s) ∧
      (keysOf m.table).Nodup :=
  ⟨le_refl 1, by decide, by decide, Or.inr rfl,
    claim_C3 1 ['a'] 1 (le_refl 1) (by decide) (by decide) (Or.inr rfl)⟩
